import Mathlib

/-!
# Zenith personal finance engine (`coreconcept.cpp`)

A shallow embedding of the class `PersonalFinanceManager` and of the queries it
offers, followed by theorems about the natural-language specification.

Modelling conventions

* `double` amounts are exact rationals (`ℚ`); rounding, infinities and NaN are
  outside the model.
* `std::string` is a list of characters, ordered lexicographically.
* `int` is `Int`; `nextId` is not bounded, so the model covers runs with fewer
  than `2^31` appends.
* `std::unordered_map` is an association list with unique keys whose list order
  stands for the (unspecified) iteration order; `std::map` and `std::set` are
  association lists kept sorted by key; `std::stack` is a list whose head is the
  top; `std::deque` and `std::vector` are lists; `std::priority_queue` is a bag
  whose `top` is its greatest element.
* The numeric methods are given a second time over an explicit arithmetic
  (`Arith`): with exact arithmetic they are the definitions of the first part,
  with machine arithmetic every `double` operation is rounded to IEEE 754
  binary64 and every `int` operation wraps on 32 bits. Theorems about exact
  numbers are proved on the first part; the machine runs show where rounding
  or wrap-around departs from them.
* Textual responses are modelled by their fields: the `to_string` rendering and
  the separators `|` and `;` are left out, except where the text itself is used
  as data (the pattern key of `detectFraud`).
-/

namespace Zenith

/-- A `std::string`. -/
abbrev CppString := List Char

/-- The record `struct Transaction`. -/
structure Transaction where
  id : Int
  amount : ℚ
  category : CppString
  description : CppString
  date : CppString
  isIncome : Bool
deriving DecidableEq

/-! ## Containers -/

/-- Type `std::unordered_map<κ, ν>`: entries in iteration order. -/
abbrev UMap (κ ν : Type) := List (κ × ν)

namespace UMap

variable {κ ν : Type} [DecidableEq κ]

/-- Lookup `m.find(k)`, `none` when the key is absent. -/
def find : UMap κ ν → κ → Option ν
  | [], _ => none
  | (k', v) :: rest, k => if k' = k then some v else find rest k

/-- The statement `m[k] = f (m[k])`: `operator[]` first inserts a
value-initialised entry when the key is absent. -/
def modify [Zero ν] : UMap κ ν → κ → (ν → ν) → UMap κ ν
  | [], k, f => [(k, f 0)]
  | (k', v) :: rest, k, f =>
    if k' = k then (k', f v) :: rest else (k', v) :: modify rest k f

/-- Reading `m[k]` right after a statement that made the entry exist. -/
def get [Zero ν] (m : UMap κ ν) (k : κ) : ν := (find m k).getD 0

/-- The call `m.erase(k)`. -/
def erase (m : UMap κ ν) (k : κ) : UMap κ ν := m.filter (fun e => decide (e.1 ≠ k))

end UMap

/-- Type `std::map<κ, ν>`: entries in ascending key order. -/
abbrev SMap (κ ν : Type) := List (κ × ν)

namespace SMap

variable {κ ν : Type} [LinearOrder κ]

/-- The statement `m[k] = f (m[k])` on an ordered map; `dflt` is the
value-initialised `ν`. -/
def modify (dflt : ν) : SMap κ ν → κ → (ν → ν) → SMap κ ν
  | [], k, f => [(k, f dflt)]
  | (k', v) :: rest, k, f =>
    if k < k' then (k, f dflt) :: (k', v) :: rest
    else if k = k' then (k', f v) :: rest
    else (k', v) :: modify dflt rest k f

end SMap

/-- The call `s.insert(x)` on a `std::set`: ordered, no duplicates. -/
def setInsert {α : Type} [LinearOrder α] (x : α) : List α → List α
  | [] => [x]
  | y :: rest =>
    if x < y then x :: y :: rest
    else if x = y then y :: rest
    else y :: setInsert x rest

/-- The loop `for (i = 0; i < n; i++) { dst.push(src.top()); src.pop(); }`;
returns `(dst, src)`. -/
def moveTop {α : Type} : Nat → List α → List α → List α × List α
  | 0, src, dst => (dst, src)
  | _ + 1, [], dst => (dst, [])
  | n + 1, x :: src, dst => moveTop n src (x :: dst)

/-- The loop `while (!src.empty()) { dst.push(src.top()); src.pop(); }`. -/
def pushAll {α : Type} : List α → List α → List α
  | [], dst => dst
  | x :: src, dst => pushAll src (x :: dst)

/-- The trimming block of `addTransaction`: when more than five entries are
stacked, the five on top are moved to `temp`, the rest is discarded and `temp`
is moved back. -/
def trimUndo (undoStack : List Transaction) : List Transaction :=
  if undoStack.length > 5 then
    let temp := (moveTop 5 undoStack []).1
    pushAll temp []
  else undoStack

/-- The call `date.substr(0, 7)`. -/
def yearMonth (date : CppString) : CppString := date.take 7

/-! ## The engine state -/

/-- The private data members of `PersonalFinanceManager`. -/
structure PersonalFinanceManager where
  transactions : List Transaction
  prefixSum : List ℚ
  categoryExpenses : UMap CppString ℚ
  categoryCount : UMap CppString Int
  undoStack : List Transaction
  dateIndex : List (Lex (CppString × Int))
  monthlyIndex : SMap CppString (List Int)
  recentTransactions : List Transaction
  nextId : Int
  currentBalance : ℚ
deriving DecidableEq

/-- The constant `RECENT_LIMIT`. -/
def RECENT_LIMIT : Nat := 10

/-- The response line of a mutating command: `SUCCESS|<balance>` or
`ERROR|<message>`. -/
inductive Response where
  | success (balance : ℚ)
  | error (msg : String)
deriving DecidableEq

/-- The constructor `PersonalFinanceManager()`. -/
def PersonalFinanceManager.new : PersonalFinanceManager where
  transactions := []
  prefixSum := [0]
  categoryExpenses := []
  categoryCount := []
  undoStack := []
  dateIndex := []
  monthlyIndex := []
  recentTransactions := []
  nextId := 1
  currentBalance := 0

/-- The method `addTransaction`. -/
def addTransaction (s : PersonalFinanceManager) (amount : ℚ)
    (category description date : CppString) (isIncome : Bool) :
    PersonalFinanceManager × Response :=
  let trans : Transaction := ⟨s.nextId, amount, category, description, date, isIncome⟩
  let nextId := s.nextId + 1
  let transactions := s.transactions ++ [trans]
  let balanceChange : ℚ := if isIncome then amount else -amount
  let currentBalance := s.currentBalance + balanceChange
  let prefixSum := s.prefixSum ++ [currentBalance]
  let categoryExpenses :=
    if !isIncome then UMap.modify s.categoryExpenses category (fun v => v + amount)
    else s.categoryExpenses
  let categoryCount :=
    if !isIncome then UMap.modify s.categoryCount category (fun v => v + 1)
    else s.categoryCount
  let undoStack := trimUndo (trans :: s.undoStack)
  let dateIndex := setInsert (toLex (date, trans.id)) s.dateIndex
  let month := yearMonth date
  let monthlyIndex := SMap.modify [] s.monthlyIndex month (fun ids => ids ++ [trans.id])
  let recent := s.recentTransactions ++ [trans]
  let recentTransactions := if recent.length > RECENT_LIMIT then recent.tail else recent
  ({ transactions := transactions
     prefixSum := prefixSum
     categoryExpenses := categoryExpenses
     categoryCount := categoryCount
     undoStack := undoStack
     dateIndex := dateIndex
     monthlyIndex := monthlyIndex
     recentTransactions := recentTransactions
     nextId := nextId
     currentBalance := currentBalance },
   Response.success currentBalance)

/-- The method `undoLastTransaction`. -/
def undoLastTransaction (s : PersonalFinanceManager) :
    PersonalFinanceManager × Response :=
  match s.undoStack with
  | [] => (s, Response.error "No transactions to undo")
  | lastTrans :: rest =>
    let transactions := s.transactions.eraseP (fun t => decide (t.id = lastTrans.id))
    let balanceChange : ℚ := if lastTrans.isIncome then -lastTrans.amount else lastTrans.amount
    let currentBalance := s.currentBalance + balanceChange
    let prefixSum := if !s.prefixSum.isEmpty then s.prefixSum.dropLast else s.prefixSum
    let categoryExpenses :=
      if !lastTrans.isIncome then
        let m := UMap.modify s.categoryExpenses lastTrans.category
          (fun v => v - lastTrans.amount)
        if UMap.get m lastTrans.category ≤ 0 then UMap.erase m lastTrans.category else m
      else s.categoryExpenses
    let categoryCount :=
      if !lastTrans.isIncome then
        UMap.modify s.categoryCount lastTrans.category (fun v => v - 1)
      else s.categoryCount
    ({ s with
       transactions := transactions
       prefixSum := prefixSum
       categoryExpenses := categoryExpenses
       categoryCount := categoryCount
       undoStack := rest
       currentBalance := currentBalance },
     Response.success currentBalance)

/-- The method `getAllTransactions`. -/
def getAllTransactions (s : PersonalFinanceManager) : List Transaction := s.transactions

/-! ## Reachable states -/

/-- States the engine can be in: the constructed one and whatever
`addTransaction` and `undoLastTransaction` make of a reachable state. -/
inductive Reachable : PersonalFinanceManager → Prop
  | new : Reachable PersonalFinanceManager.new
  | add {s : PersonalFinanceManager} (amount : ℚ) (category description date : CppString)
      (isIncome : Bool) :
      Reachable s → Reachable (addTransaction s amount category description date isIncome).1
  | undo {s : PersonalFinanceManager} :
      Reachable s → Reachable (undoLastTransaction s).1

/-- Reachable states when every appended amount is non-negative. -/
inductive ReachableNonneg : PersonalFinanceManager → Prop
  | new : ReachableNonneg PersonalFinanceManager.new
  | add {s : PersonalFinanceManager} (amount : ℚ) (category description date : CppString)
      (isIncome : Bool) : 0 ≤ amount →
      ReachableNonneg s →
      ReachableNonneg (addTransaction s amount category description date isIncome).1
  | undo {s : PersonalFinanceManager} :
      ReachableNonneg s → ReachableNonneg (undoLastTransaction s).1

/-- The contribution of a transaction to the balance: income counts
positive, expense negative. -/
def signedAmount (t : Transaction) : ℚ := if t.isIncome then t.amount else -t.amount

/-- The signed sum of a sequence of transactions. -/
def signedSum (ts : List Transaction) : ℚ := (ts.map signedAmount).sum

/-- Performs a list of appends, each given as
`(amount, category, description, date, isIncome)`. -/
def addAll (s : PersonalFinanceManager) :
    List (ℚ × CppString × CppString × CppString × Bool) → PersonalFinanceManager
  | [] => s
  | a :: rest => addAll (addTransaction s a.1 a.2.1 a.2.2.1 a.2.2.2.1 a.2.2.2.2).1 rest

/-- Calls `undoLastTransaction` the given number of times. -/
def undoTimes (s : PersonalFinanceManager) : Nat → PersonalFinanceManager
  | 0 => s
  | n + 1 => undoTimes (undoLastTransaction s).1 n

/-- The facts about a reachable state that make `undoLastTransaction` find the
transaction it pops: ids are fresh and increasing, the undo stack lists the
tail of `transactions` (newest on top), and the balance is the signed sum. -/
structure Inv (s : PersonalFinanceManager) : Prop where
  ids_lt : ∀ t ∈ s.transactions, t.id < s.nextId
  ids_sorted : s.transactions.Pairwise (fun a b => a.id < b.id)
  undo_suffix : s.undoStack.reverse <:+ s.transactions
  balance : s.currentBalance = signedSum s.transactions

/-- The sum of the amounts of the stored expenses of category `c`. -/
def categorySpend (ts : List Transaction) (c : CppString) : ℚ :=
  ((ts.filter (fun t => !t.isIncome && decide (t.category = c))).map Transaction.amount).sum

/-- The sum of the amounts of all stored expenses. -/
def totalExpense (ts : List Transaction) : ℚ :=
  ((ts.filter (fun t => !t.isIncome)).map Transaction.amount).sum

/-- Type `std::priority_queue<α>` with the default comparator `std::less`. -/
abbrev PriorityQueue (α : Type) := List α

namespace PriorityQueue

variable {α : Type} [LinearOrder α]

/-- The call `q.push(x)`. -/
def push (q : PriorityQueue α) (x : α) : PriorityQueue α := x :: q

/-- The call `q.top()`: the greatest element, `none` when `q.empty()`. -/
def top (q : PriorityQueue α) : Option α := List.maximum q

/-- The call `q.pop()`: removes one copy of the greatest element. -/
def pop (q : PriorityQueue α) : PriorityQueue α :=
  match top q with
  | none => q
  | some x => List.erase q x

/-- The loop `for (i = 0; i < k && !q.empty(); i++) { out += q.top(); q.pop(); }`,
the argument being the number of iterations `k` still allows. -/
def popLoop : Nat → PriorityQueue α → List α
  | 0, _ => []
  | n + 1, q =>
    match top q with
    | none => []
    | some x => x :: popLoop n (pop q)

end PriorityQueue

/-- The heap that `getTopExpenses` fills: one `(amount, description)` pair per
stored expense, compared as `std::pair` (lexicographically). -/
def expenseHeap (ts : List Transaction) : PriorityQueue (Lex (ℚ × CppString)) :=
  ts.foldl
    (fun q t => if !t.isIncome then PriorityQueue.push q (toLex (t.amount, t.description)) else q)
    []

/-- The method `getTopExpenses`: the `(amount, description)` entries in output order. -/
def getTopExpenses (s : PersonalFinanceManager) (k : Int) : List (ℚ × CppString) :=
  (PriorityQueue.popLoop k.toNat (expenseHeap s.transactions)).map ofLex

/-- The heap that `getTopCategories` fills: one `(total, name)` pair per entry. -/
def categoryHeap (m : UMap CppString ℚ) : PriorityQueue (Lex (ℚ × CppString)) :=
  m.foldl (fun q cat => PriorityQueue.push q (toLex (cat.2, cat.1))) []

/-- The method `getTopCategories`: the `(category, total)` entries in output order. -/
def getTopCategories (s : PersonalFinanceManager) (k : Int) : List (CppString × ℚ) :=
  (PriorityQueue.popLoop k.toNat (categoryHeap s.categoryExpenses)).map
    (fun p => ((ofLex p).2, (ofLex p).1))

/-- The ranking the specification describes for categories: `a` comes before
`b` when its total is larger, or the totals are equal and its name is not smaller. -/
def categoryBefore (a b : CppString × ℚ) : Prop := b.2 < a.2 ∨ (a.2 = b.2 ∧ b.1 ≤ a.1)

instance : DecidableRel categoryBefore := fun a b => by unfold categoryBefore; infer_instance

/-- Specification of `topCategories`: sort the entries by `categoryBefore` and
keep the first `k`. -/
def specTopCategories (m : UMap CppString ℚ) (k : Nat) : List (CppString × ℚ) :=
  (m.insertionSort categoryBefore).take (min k m.length)

/-- The ranking the specification describes for expenses: larger amount first,
equal amounts by description descending. -/
def expenseBefore (a b : ℚ × CppString) : Prop := b.1 < a.1 ∨ (a.1 = b.1 ∧ b.2 ≤ a.2)

/-- The `(amount, description)` pairs of the stored expenses, in storage order. -/
def expensePairs (ts : List Transaction) : List (ℚ × CppString) :=
  (ts.filter (fun t => !t.isIncome)).map (fun t => (t.amount, t.description))

/-! ## Monthly average -/

/-- The grouping loop of `getMonthlyAverage`: expense totals per year-month. -/
def monthlyTotalsOf (ts : List Transaction) : SMap CppString ℚ :=
  ts.foldl
    (fun m t => if !t.isIncome then SMap.modify 0 m (yearMonth t.date) (fun v => v + t.amount)
      else m)
    []

/-- Conversion of an `int` to `size_t` (64 bit), as the comparison
`monthsToConsider < monthlyTotals.size()` performs it. -/
def toSizeT (x : Int) : Nat := (x % 2 ^ 64).toNat

/-- The method `getMonthlyAverage` up to its last statement: `none` for the two
early returns of `"0.0"`, otherwise the dividend `totalExpenses` and the
divisor `monthsToConsider`. -/
def monthlyAverageParts (s : PersonalFinanceManager) (months : Int) : Option (ℚ × Int) :=
  if s.transactions.isEmpty then none
  else
    let monthlyTotals := monthlyTotalsOf s.transactions
    if monthlyTotals.isEmpty then none
    else
      let totalExpenses : ℚ := monthlyTotals.foldl (fun acc e => acc + e.2) 0
      let monthsToConsider : Int := min months (monthlyTotals.length : Int)
      let totalExpenses :=
        if toSizeT monthsToConsider < monthlyTotals.length then
          (monthlyTotals.reverse.take monthsToConsider.toNat).foldl (fun acc e => acc + e.2) 0
        else totalExpenses
      some (totalExpenses, monthsToConsider)

/-- The method `getMonthlyAverage`. -/
def getMonthlyAverage (s : PersonalFinanceManager) (months : Int) : ℚ :=
  match monthlyAverageParts s months with
  | none => 0
  | some (totalExpenses, monthsToConsider) => totalExpenses / (monthsToConsider : ℚ)

/-- The year-month keys of the stored expenses (the first 7 characters of
their dates), each once, in ascending order. -/
def expenseMonths (ts : List Transaction) : List CppString :=
  (((ts.filter (fun t => !t.isIncome)).map (fun t => t.date.take 7)).dedup).insertionSort
    (fun a b => a ≤ b)

/-- The expense total of one year-month: the sum of the amounts of the stored
expenses whose date starts with the 7 characters `ym`. -/
def monthTotal (ts : List Transaction) (ym : CppString) : ℚ :=
  ((ts.filter (fun t => !t.isIncome && decide (t.date.take 7 = ym))).map
    Transaction.amount).sum

/-- Specification of `monthlyAverage`: `0` without expenses, otherwise the
totals of the `n` largest year-month keys, summed and divided by `n`, where
`n = min(monthsWindow, number of months with expenses)`. -/
def specMonthlyAverage (ts : List Transaction) (monthsWindow : Nat) : ℚ :=
  if ts.filter (fun t => !t.isIncome) = [] then 0
  else
    let keys := expenseMonths ts
    let n := min monthsWindow keys.length
    (((keys.drop (keys.length - n)).map (monthTotal ts)).sum) / (n : ℚ)

/-! ## Budget analysis -/

/-- The fields of the response of `analyzeBudget`. -/
inductive BudgetReport where
  | over (budget totalSpending delta : ℚ) (top : List (CppString × ℚ))
  | under (budget totalSpending headroom : ℚ)
deriving DecidableEq

/-- The method `analyzeBudget`. `std::sort` over the reverse iterators is an
ascending sort of the reversed vector, read back in vector order. -/
def analyzeBudget (s : PersonalFinanceManager) (monthlyBudget : ℚ) : BudgetReport :=
  let totalSpending : ℚ := s.categoryExpenses.foldl (fun acc cat => acc + cat.2) 0
  if totalSpending > monthlyBudget then
    let sortedCategories : List (Lex (ℚ × CppString)) :=
      s.categoryExpenses.foldl (fun v cat => v ++ [toLex (cat.2, cat.1)]) []
    let sorted := (sortedCategories.reverse.insertionSort (fun a b => a ≤ b)).reverse
    BudgetReport.over monthlyBudget totalSpending (totalSpending - monthlyBudget)
      ((sorted.take (min 3 sorted.length)).map (fun p => ((ofLex p).2, (ofLex p).1)))
  else
    BudgetReport.under monthlyBudget totalSpending (monthlyBudget - totalSpending)

/-! ## Fraud heuristics -/

/-- One entry of the response of `detectFraud`. -/
inductive Finding where
  | duplicate (pattern : CppString) (count : Int)
  | large (amount : ℚ) (category date : CppString)
  | safe
deriving DecidableEq

/-- The key `to_string(amount) + "|" + category + "|" + date`; `fmt` stands for
`std::to_string` on `double`. -/
def patternKey (fmt : ℚ → CppString) (t : Transaction) : CppString :=
  fmt t.amount ++ ['|'] ++ t.category ++ ['|'] ++ t.date

/-- The counting loop of the duplicate pass. -/
def countPatterns (fmt : ℚ → CppString) (ts : List Transaction) : UMap CppString Int :=
  ts.foldl (fun m t => UMap.modify m (patternKey fmt t) (fun v => v + 1)) []

/-- The reporting loop of the duplicate pass, on `(result, foundIssues)`. -/
def reportDuplicates (patterns : UMap CppString Int) (acc : List Finding × Bool) :
    List Finding × Bool :=
  patterns.foldl
    (fun r p => if p.2 > 1 then (r.1 ++ [Finding.duplicate p.1 p.2], true) else r)
    acc

/-- The duplicate pass of `detectFraud`: its findings in output order. -/
def duplicatePass (fmt : ℚ → CppString) (s : PersonalFinanceManager) : List Finding :=
  (reportDuplicates (countPatterns fmt s.transactions) ([], false)).1

/-- The outlier pass of `detectFraud`, on `(result, foundIssues)`. -/
def reportLarge (ts : List Transaction) (acc : List Finding × Bool) : List Finding × Bool :=
  if !ts.isEmpty then
    let expenses : List ℚ :=
      ts.foldl (fun v t => if !t.isIncome then v ++ [t.amount] else v) []
    if !expenses.isEmpty then
      let sorted := expenses.insertionSort (fun a b => a ≤ b)
      let median := sorted.getD (sorted.length / 2) 0
      let threshold := median * 3
      ts.foldl
        (fun r t =>
          if !t.isIncome && decide (t.amount > threshold) then
            (r.1 ++ [Finding.large t.amount t.category t.date], true)
          else r)
        acc
    else acc
  else acc

/-- The method `detectFraud`. -/
def detectFraud (fmt : ℚ → CppString) (s : PersonalFinanceManager) : List Finding :=
  let r := reportDuplicates (countPatterns fmt s.transactions) ([], false)
  let r := reportLarge s.transactions r
  if !r.2 then [Finding.safe] else r.1

/-- The number of stored transactions whose `(amount, category, date)` is the given tuple. -/
def tupleCount (ts : List Transaction) (a : ℚ) (c d : CppString) : Nat :=
  (ts.filter (fun t => decide (t.amount = a ∧ t.category = c ∧ t.date = d))).length

/-- The facts about the category totals of a state reached with non-negative
amounts: keys are unique, an entry records the spend of its category and
exists only while an expense of that category is stored, a category without
entry has spend `0`, and the entries add up to the total expense. -/
structure CatInv (s : PersonalFinanceManager) : Prop where
  amounts_nonneg : ∀ t ∈ s.transactions, 0 ≤ t.amount
  keys_nodup : (s.categoryExpenses.map Prod.fst).Nodup
  recorded : ∀ c v, UMap.find s.categoryExpenses c = some v →
    v = categorySpend s.transactions c ∧
      ∃ t ∈ s.transactions, t.isIncome = false ∧ t.category = c
  absent : ∀ c, UMap.find s.categoryExpenses c = none → categorySpend s.transactions c = 0
  total : (s.categoryExpenses.map Prod.snd).sum = totalExpense s.transactions

/-- The appends of the specification's scenario: income 1000 on 2024-01-01,
then expense 200 `Food` on 2024-01-05. -/
def scenarioAppends : List (ℚ × CppString × CppString × CppString × Bool) :=
  [(1000, "Salary".toList, "pay".toList, "2024-01-01".toList, true),
   (200, "Food".toList, "lunch".toList, "2024-01-05".toList, false)]

/-- The state after the scenario's two appends. -/
def scenarioState : PersonalFinanceManager := addAll PersonalFinanceManager.new scenarioAppends

/-- Six appends of income `1`. -/
def sixAppends : List (ℚ × CppString × CppString × CppString × Bool) :=
  List.replicate 6 (1, "Salary".toList, "pay".toList, "2024-01-01".toList, true)

/-- The comparison `operator<` of `std::pair<double, string>`. -/
def pairLess (a b : ℚ × CppString) : Prop := a.1 < b.1 ∨ (¬ b.1 < a.1 ∧ a.2 < b.2)

/-- Four stored transactions used to illustrate the ranking queries: an
income and three expenses, two of them of equal amount. -/
def rankingState : PersonalFinanceManager :=
  addAll PersonalFinanceManager.new
    [(1000, "Salary".toList, "pay".toList, "2024-01-01".toList, true),
     (20, "Food".toList, "apple".toList, "2024-01-05".toList, false),
     (50, "Fuel".toList, "diesel".toList, "2024-02-07".toList, false),
     (20, "Fun".toList, "cinema".toList, "2024-03-09".toList, false)]

/-- The entries of an ordered map with keys `keys` and values given by `g`. -/
def tabulate {κ ν : Type} (keys : List κ) (g : κ → ν) : SMap κ ν := keys.map (fun k => (k, g k))

/-- Expenses of 20 in January, 50 in February and 20 in March 2024. -/
def monthlyState : PersonalFinanceManager := rankingState

/-- Two expenses of amount 10 that differ in category and in date: `Fuel` on
`2024|01`, and `Fuel|2024` on `01`. -/
def collidingState : PersonalFinanceManager :=
  addAll PersonalFinanceManager.new
    [(10, "Fuel".toList, "diesel".toList, "2024|01".toList, false),
     (10, "Fuel|2024".toList, "petrol".toList, "01".toList, false)]

/-- Three expenses of amount 10 in category `Fuel` on the same date. -/
def threeFuelState : PersonalFinanceManager :=
  addAll PersonalFinanceManager.new
    [(10, "Fuel".toList, "diesel".toList, "2024-01-05".toList, false),
     (10, "Fuel".toList, "petrol".toList, "2024-01-05".toList, false),
     (10, "Fuel".toList, "gas".toList, "2024-01-05".toList, false)]

/-- The number of stored transactions whose pattern key is `key`. -/
def keyCount (fmt : ℚ → CppString) (ts : List Transaction) (key : CppString) : Nat :=
  (ts.filter (fun t => decide (patternKey fmt t = key))).length

/-! ## Definitions for the outlier pass, suggestions and the remaining invariants -/

/-- The outlier pass of `detectFraud`: its findings in output order. -/
def largePass (s : PersonalFinanceManager) : List Finding :=
  (reportLarge s.transactions ([], false)).1

/-- The amounts of the stored expenses, in storage order. -/
def expenseAmounts (ts : List Transaction) : List ℚ :=
  (ts.filter (fun t => !t.isIncome)).map Transaction.amount

/-- Specification of the outlier findings for a given median: one `Large`
finding per stored expense whose amount exceeds three times the median, in
storage order. -/
def specLargeFindings (ts : List Transaction) (median : ℚ) : List Finding :=
  (ts.filter (fun t => !t.isIncome && decide (t.amount > 3 * median))).map
    (fun t => Finding.large t.amount t.category t.date)

/-- The method `getCategorySuggestions`: the categories in output order. The
parameter is the source's `prefix`. -/
def getCategorySuggestions (s : PersonalFinanceManager) (pfx : CppString) : List CppString :=
  s.transactions.foldl
    (fun uniqueCategories t =>
      if t.category.take pfx.length = pfx then setInsert t.category uniqueCategories
      else uniqueCategories)
    []

/-- One call of a mutating method. -/
inductive Op where
  | add (amount : ℚ) (category description date : CppString) (isIncome : Bool)
  | undo
deriving DecidableEq

/-- The state after one call. -/
def step (s : PersonalFinanceManager) : Op → PersonalFinanceManager
  | Op.add a c d dt i => (addTransaction s a c d dt i).1
  | Op.undo => (undoLastTransaction s).1

/-- The state after a sequence of calls, oldest first. -/
def run (s : PersonalFinanceManager) : List Op → PersonalFinanceManager
  | [] => s
  | op :: ops => run (step s op) ops

/-- The number of `addTransaction` calls in a sequence of calls. -/
def countAdds : List Op → Nat
  | [] => 0
  | Op.add _ _ _ _ _ :: ops => countAdds ops + 1
  | Op.undo :: ops => countAdds ops

/-- The state after the scenario's two appends and one undo: only the income
of 1000 is stored. -/
def scenarioUndone : PersonalFinanceManager := (undoLastTransaction scenarioState).1

/-- One append (expense 200 `Food` on 2024-01-05) followed by one undo. -/
def addUndoState : PersonalFinanceManager :=
  (undoLastTransaction
    (addTransaction PersonalFinanceManager.new 200 "Food".toList "lunch".toList
      "2024-01-05".toList false).1).1

/-- Expenses of 10, 10, 10, 10 and 100 in storage order, after an income. -/
def outlierState : PersonalFinanceManager :=
  addAll PersonalFinanceManager.new
    [(500, "Salary".toList, "pay".toList, "2024-01-01".toList, true),
     (10, "Food".toList, "a".toList, "2024-01-02".toList, false),
     (100, "Travel".toList, "b".toList, "2024-01-03".toList, false),
     (10, "Food".toList, "c".toList, "2024-01-04".toList, false),
     (10, "Fuel".toList, "d".toList, "2024-01-05".toList, false),
     (10, "Fun".toList, "e".toList, "2024-01-06".toList, false)]

/-- A rendering of amounts used for concrete runs: sign, numerator, `/`,
denominator. The theorems on `detectFraud` hold for every rendering. -/
def exactRender (q : ℚ) : CppString :=
  (if q < 0 then ['-'] else []) ++ Nat.toDigits 10 q.num.natAbs ++ ['/'] ++ Nat.toDigits 10 q.den

/-- A state with categories `Food`, `Fuel` and `Fun`, the first one twice. -/
def suggestionState : PersonalFinanceManager :=
  addAll PersonalFinanceManager.new
    [(20, "Fun".toList, "cinema".toList, "2024-03-09".toList, false),
     (20, "Food".toList, "apple".toList, "2024-01-05".toList, false),
     (50, "Fuel".toList, "diesel".toList, "2024-02-07".toList, false),
     (30, "Food".toList, "bread".toList, "2024-02-08".toList, false)]

/-- The ids that occur in `dateIndex`. -/
def dateIndexIds (s : PersonalFinanceManager) : List Int :=
  s.dateIndex.map (fun e => (ofLex e).2)

/-- The ids that occur in `monthlyIndex`. -/
def monthlyIndexIds (s : PersonalFinanceManager) : List Int :=
  (s.monthlyIndex.map Prod.snd).flatten

/-! ## Machine arithmetic

The definitions above take `double` as exact rationals and `int` as unbounded
integers. The definitions below are the same methods over an explicit
arithmetic, so that they can also be run with IEEE 754 rounding and 32-bit
integers. -/

/-- The power `2 ^ e` for an integer exponent. -/
def pow2 (e : Int) : ℚ :=
  if 0 ≤ e then ((2 ^ e.toNat : Nat) : ℚ) else 1 / ((2 ^ (-e).toNat : Nat) : ℚ)

/-- The number of halvings that bring `n` below 2, with at most `fuel` steps. -/
def log2Fuel : Nat → Nat → Nat
  | 0, _ => 0
  | fuel + 1, n => if n < 2 then 0 else log2Fuel fuel (n / 2) + 1

/-- The integer part of the binary logarithm of `n ≥ 1`. -/
def natLog2 (n : Nat) : Nat := log2Fuel n n

/-- The integer `k` with `2 ^ k ≤ n / d < 2 ^ (k + 1)`, for `n, d > 0`. -/
def floorLog2 (n d : Nat) : Int :=
  let k : Int := (natLog2 n : Int) - (natLog2 d : Int)
  if pow2 k * (d : ℚ) ≤ (n : ℚ) then k else k - 1

/-- Rounding of the non-negative fraction `n / d` to an integer, to nearest,
ties to even. -/
def roundHalfEven (n d : Nat) : Nat :=
  let f := n / d
  let r := n % d
  if 2 * r < d then f
  else if d < 2 * r then f + 1
  else if f % 2 = 0 then f else f + 1

/-- Rounding of a real number to IEEE 754 binary64 (`double`), to nearest, ties
to even: 53 significant bits, least exponent `-1074`. Overflow is not
modelled: the value is the one the format gives while the result stays below
`2 ^ 1024` in magnitude. Infinities, NaN and the sign of zero are left out. -/
def roundDouble (q : ℚ) : ℚ :=
  if q = 0 then 0
  else
    let n := q.num.natAbs
    let d := q.den
    let e := max (floorLog2 n d) (-1022)
    let ulp := pow2 (e - 52)
    let scaled : ℚ := ((n : ℚ) / (d : ℚ)) / ulp
    let m := roundHalfEven scaled.num.natAbs scaled.den
    (if q < 0 then -1 else 1) * (m : ℚ) * ulp

/-- The value an `int` holds after an arithmetic result `x`: two's complement
on 32 bits. Signed overflow is undefined in C++; this is what the usual
targets produce. -/
def wrapInt (x : Int) : Int := (x + 2 ^ 31) % 2 ^ 32 - 2 ^ 31

/-- The arithmetic of the engine: `+`, `-`, `*`, `/` on `double`, and `++`,
`--` on `int`. -/
structure Arith where
  add : ℚ → ℚ → ℚ
  sub : ℚ → ℚ → ℚ
  mul : ℚ → ℚ → ℚ
  div : ℚ → ℚ → ℚ
  succ : Int → Int
  pred : Int → Int

/-- Exact arithmetic: amounts as exact numbers, integers unbounded. -/
def Arith.exact : Arith where
  add := fun a b => a + b
  sub := fun a b => a - b
  mul := fun a b => a * b
  div := fun a b => a / b
  succ := fun x => x + 1
  pred := fun x => x - 1

/-- Machine arithmetic: every `double` operation is rounded, every `int`
operation wraps. -/
def Arith.machine : Arith where
  add := fun a b => roundDouble (a + b)
  sub := fun a b => roundDouble (a - b)
  mul := fun a b => roundDouble (a * b)
  div := fun a b => roundDouble (a / b)
  succ := fun x => wrapInt (x + 1)
  pred := fun x => wrapInt (x - 1)

/-- The method `addTransaction` over the arithmetic `A`. -/
def addTransactionWith (A : Arith) (s : PersonalFinanceManager) (amount : ℚ)
    (category description date : CppString) (isIncome : Bool) :
    PersonalFinanceManager × Response :=
  let trans : Transaction := ⟨s.nextId, amount, category, description, date, isIncome⟩
  let nextId := A.succ s.nextId
  let transactions := s.transactions ++ [trans]
  let balanceChange : ℚ := if isIncome then amount else -amount
  let currentBalance := A.add s.currentBalance balanceChange
  let prefixSum := s.prefixSum ++ [currentBalance]
  let categoryExpenses :=
    if !isIncome then UMap.modify s.categoryExpenses category (fun v => A.add v amount)
    else s.categoryExpenses
  let categoryCount :=
    if !isIncome then UMap.modify s.categoryCount category (fun v => A.succ v)
    else s.categoryCount
  let undoStack := trimUndo (trans :: s.undoStack)
  let dateIndex := setInsert (toLex (date, trans.id)) s.dateIndex
  let month := yearMonth date
  let monthlyIndex := SMap.modify [] s.monthlyIndex month (fun ids => ids ++ [trans.id])
  let recent := s.recentTransactions ++ [trans]
  let recentTransactions := if recent.length > RECENT_LIMIT then recent.tail else recent
  ({ transactions := transactions
     prefixSum := prefixSum
     categoryExpenses := categoryExpenses
     categoryCount := categoryCount
     undoStack := undoStack
     dateIndex := dateIndex
     monthlyIndex := monthlyIndex
     recentTransactions := recentTransactions
     nextId := nextId
     currentBalance := currentBalance },
   Response.success currentBalance)

/-- The method `undoLastTransaction` over the arithmetic `A`. -/
def undoLastTransactionWith (A : Arith) (s : PersonalFinanceManager) :
    PersonalFinanceManager × Response :=
  match s.undoStack with
  | [] => (s, Response.error "No transactions to undo")
  | lastTrans :: rest =>
    let transactions := s.transactions.eraseP (fun t => decide (t.id = lastTrans.id))
    let balanceChange : ℚ := if lastTrans.isIncome then -lastTrans.amount else lastTrans.amount
    let currentBalance := A.add s.currentBalance balanceChange
    let prefixSum := if !s.prefixSum.isEmpty then s.prefixSum.dropLast else s.prefixSum
    let categoryExpenses :=
      if !lastTrans.isIncome then
        let m := UMap.modify s.categoryExpenses lastTrans.category
          (fun v => A.sub v lastTrans.amount)
        if UMap.get m lastTrans.category ≤ 0 then UMap.erase m lastTrans.category else m
      else s.categoryExpenses
    let categoryCount :=
      if !lastTrans.isIncome then
        UMap.modify s.categoryCount lastTrans.category (fun v => A.pred v)
      else s.categoryCount
    ({ s with
       transactions := transactions
       prefixSum := prefixSum
       categoryExpenses := categoryExpenses
       categoryCount := categoryCount
       undoStack := rest
       currentBalance := currentBalance },
     Response.success currentBalance)

/-- The state after one call, over the arithmetic `A`. -/
def stepWith (A : Arith) (s : PersonalFinanceManager) : Op → PersonalFinanceManager
  | Op.add a c d dt i => (addTransactionWith A s a c d dt i).1
  | Op.undo => (undoLastTransactionWith A s).1

/-- The state after a sequence of calls, oldest first, over the arithmetic `A`. -/
def runWith (A : Arith) (s : PersonalFinanceManager) : List Op → PersonalFinanceManager
  | [] => s
  | op :: ops => runWith A (stepWith A s op) ops

/-- The method `analyzeBudget` over the arithmetic `A`. -/
def analyzeBudgetWith (A : Arith) (s : PersonalFinanceManager) (monthlyBudget : ℚ) :
    BudgetReport :=
  let totalSpending : ℚ := s.categoryExpenses.foldl (fun acc cat => A.add acc cat.2) 0
  if totalSpending > monthlyBudget then
    let sortedCategories : List (Lex (ℚ × CppString)) :=
      s.categoryExpenses.foldl (fun v cat => v ++ [toLex (cat.2, cat.1)]) []
    let sorted := (sortedCategories.reverse.insertionSort (fun a b => a ≤ b)).reverse
    BudgetReport.over monthlyBudget totalSpending (A.sub totalSpending monthlyBudget)
      ((sorted.take (min 3 sorted.length)).map (fun p => ((ofLex p).2, (ofLex p).1)))
  else
    BudgetReport.under monthlyBudget totalSpending (A.sub monthlyBudget totalSpending)

/-- The outlier pass of `detectFraud` over the arithmetic `A`, on
`(result, foundIssues)`. -/
def reportLargeWith (A : Arith) (ts : List Transaction) (acc : List Finding × Bool) :
    List Finding × Bool :=
  if !ts.isEmpty then
    let expenses : List ℚ :=
      ts.foldl (fun v t => if !t.isIncome then v ++ [t.amount] else v) []
    if !expenses.isEmpty then
      let sorted := expenses.insertionSort (fun a b => a ≤ b)
      let median := sorted.getD (sorted.length / 2) 0
      let threshold := A.mul median 3
      ts.foldl
        (fun r t =>
          if !t.isIncome && decide (t.amount > threshold) then
            (r.1 ++ [Finding.large t.amount t.category t.date], true)
          else r)
        acc
    else acc
  else acc

/-- The findings of the outlier pass over the arithmetic `A`. -/
def largePassWith (A : Arith) (s : PersonalFinanceManager) : List Finding :=
  (reportLargeWith A s.transactions ([], false)).1

/-- The method `detectFraud` over the arithmetic `A`. -/
def detectFraudWith (A : Arith) (fmt : ℚ → CppString) (s : PersonalFinanceManager) :
    List Finding :=
  let r := reportDuplicates (countPatterns fmt s.transactions) ([], false)
  let r := reportLargeWith A s.transactions r
  if !r.2 then [Finding.safe] else r.1

/-- The grouping loop of `getMonthlyAverage` over the arithmetic `A`. -/
def monthlyTotalsOfWith (A : Arith) (ts : List Transaction) : SMap CppString ℚ :=
  ts.foldl
    (fun m t =>
      if !t.isIncome then SMap.modify 0 m (yearMonth t.date) (fun v => A.add v t.amount)
      else m)
    []

/-- The method `getMonthlyAverage` over the arithmetic `A`, up to its last
statement. -/
def monthlyAveragePartsWith (A : Arith) (s : PersonalFinanceManager) (months : Int) :
    Option (ℚ × Int) :=
  if s.transactions.isEmpty then none
  else
    let monthlyTotals := monthlyTotalsOfWith A s.transactions
    if monthlyTotals.isEmpty then none
    else
      let totalExpenses : ℚ := monthlyTotals.foldl (fun acc e => A.add acc e.2) 0
      let monthsToConsider : Int := min months (monthlyTotals.length : Int)
      let totalExpenses :=
        if toSizeT monthsToConsider < monthlyTotals.length then
          (monthlyTotals.reverse.take monthsToConsider.toNat).foldl
            (fun acc e => A.add acc e.2) 0
        else totalExpenses
      some (totalExpenses, monthsToConsider)

/-- The method `getMonthlyAverage` over the arithmetic `A`. -/
def getMonthlyAverageWith (A : Arith) (s : PersonalFinanceManager) (months : Int) : ℚ :=
  match monthlyAveragePartsWith A s months with
  | none => 0
  | some (totalExpenses, monthsToConsider) => A.div totalExpenses (monthsToConsider : ℚ)

/-- The `double` nearest to a decimal literal, as the stream extraction
`ss >> amount` yields it. -/
def dbl (q : ℚ) : ℚ := roundDouble q

/-- Machine run: an expense of 0.1 in `Food`. -/
def tenthState : PersonalFinanceManager :=
  runWith Arith.machine PersonalFinanceManager.new
    [Op.add (dbl (1 / 10)) "Food".toList "tea".toList "2024-01-05".toList false]

/-- Machine run: expenses of 0.1, 0.2 and 0.3 in `Food`, then three undos. -/
def roundedRoundTripState : PersonalFinanceManager :=
  runWith Arith.machine PersonalFinanceManager.new
    [Op.add (dbl (1 / 10)) "Food".toList "tea".toList "2024-01-05".toList false,
     Op.add (dbl (2 / 10)) "Food".toList "bun".toList "2024-01-06".toList false,
     Op.add (dbl (3 / 10)) "Food".toList "jam".toList "2024-01-07".toList false,
     Op.undo, Op.undo, Op.undo]

/-- Machine run: an expense of `1e16` in `Rent` and an expense of 1 in `Food`,
both in January 2024. -/
def absorbedState : PersonalFinanceManager :=
  runWith Arith.machine PersonalFinanceManager.new
    [Op.add 10000000000000000 "Rent".toList "flat".toList "2024-01-05".toList false,
     Op.add 1 "Food".toList "bun".toList "2024-01-06".toList false]

/-- Machine run: expenses of 0.1, 0.1 and 0.30000000000000004. -/
def thresholdState : PersonalFinanceManager :=
  runWith Arith.machine PersonalFinanceManager.new
    [Op.add (dbl (1 / 10)) "Food".toList "tea".toList "2024-01-05".toList false,
     Op.add (dbl (1 / 10)) "Fuel".toList "gas".toList "2024-01-06".toList false,
     Op.add (dbl (30000000000000004 / 100000000000000000)) "Fun".toList "film".toList
       "2024-01-07".toList false]

/-- A sequence of `n` appends of income 1. -/
def incomeOps (n : Nat) : List Op :=
  List.replicate n (Op.add 1 "Salary".toList "pay".toList "2024-01-01".toList true)

/-! # Theorems -/

/-! ## Container lemmas -/

theorem moveTop_eq {α : Type} (n : Nat) (src dst : List α) :
    moveTop n src dst = ((src.take n).reverse ++ dst, src.drop n) := by
  induction n generalizing src dst with
  | zero => simp [moveTop]
  | succ n ih =>
    cases src with
    | nil => simp [moveTop]
    | cons x src => simp [moveTop, ih]

theorem pushAll_eq {α : Type} (src dst : List α) : pushAll src dst = src.reverse ++ dst := by
  induction src generalizing dst with
  | nil => simp [pushAll]
  | cons x src ih => simp [pushAll, ih]

theorem trimUndo_eq (st : List Transaction) : trimUndo st = st.take 5 := by
  unfold trimUndo
  split
  · simp [moveTop_eq, pushAll_eq]
  · rw [List.take_of_length_le (by omega)]

theorem eraseP_last_of_fresh (pre : List Transaction) (x : Transaction)
    (h : ∀ t ∈ pre, t.id ≠ x.id) :
    (pre ++ [x]).eraseP (fun t => decide (t.id = x.id)) = pre := by
  induction pre with
  | nil => simp [List.eraseP]
  | cons y pre ih =>
    have hy : y.id ≠ x.id := h y (List.mem_cons_self _ _)
    have := ih (fun t ht => h t (List.mem_cons_of_mem _ ht))
    simp [List.eraseP, hy]
    simpa using this

theorem signedSum_append (xs ys : List Transaction) :
    signedSum (xs ++ ys) = signedSum xs + signedSum ys := by
  simp [signedSum]

/-! ## The state invariant -/

theorem inv_new : Inv PersonalFinanceManager.new where
  ids_lt := by simp [PersonalFinanceManager.new]
  ids_sorted := by simp [PersonalFinanceManager.new]
  undo_suffix := by simp [PersonalFinanceManager.new]
  balance := by simp [PersonalFinanceManager.new, signedSum]

theorem add_transactions (s : PersonalFinanceManager) (a : ℚ) (c d dt : CppString) (i : Bool) :
    (addTransaction s a c d dt i).1.transactions = s.transactions ++ [⟨s.nextId, a, c, d, dt, i⟩] :=
  rfl

theorem add_undoStack (s : PersonalFinanceManager) (a : ℚ) (c d dt : CppString) (i : Bool) :
    (addTransaction s a c d dt i).1.undoStack
      = (⟨s.nextId, a, c, d, dt, i⟩ :: s.undoStack).take 5 := by
  simp [addTransaction, trimUndo_eq]

theorem add_currentBalance (s : PersonalFinanceManager) (a : ℚ) (c d dt : CppString) (i : Bool) :
    (addTransaction s a c d dt i).1.currentBalance
      = s.currentBalance + signedAmount ⟨s.nextId, a, c, d, dt, i⟩ := rfl

theorem add_nextId (s : PersonalFinanceManager) (a : ℚ) (c d dt : CppString) (i : Bool) :
    (addTransaction s a c d dt i).1.nextId = s.nextId + 1 := rfl

theorem inv_add {s : PersonalFinanceManager} (h : Inv s) (a : ℚ) (c d dt : CppString)
    (i : Bool) : Inv (addTransaction s a c d dt i).1 where
  ids_lt := by
    intro t ht
    rw [add_transactions, List.mem_append] at ht
    rw [add_nextId]
    rcases ht with ht | ht
    · have := h.ids_lt t ht; omega
    · simp at ht; subst ht; simp
  ids_sorted := by
    rw [add_transactions, List.pairwise_append]
    refine ⟨h.ids_sorted, by simp, ?_⟩
    intro x hx y hy
    simp at hy; subst hy
    exact h.ids_lt x hx
  undo_suffix := by
    rw [add_transactions, add_undoStack]
    obtain ⟨pre, hpre⟩ := h.undo_suffix
    have h4 : (s.undoStack.take 4).reverse <:+ s.undoStack.reverse := by
      have := (List.take_prefix 4 s.undoStack)
      exact List.reverse_suffix.mpr this
    obtain ⟨q, hq⟩ := h4
    refine ⟨pre ++ q, ?_⟩
    simp [List.take_succ_cons]
    rw [← hpre, ← hq]
    simp
  balance := by
    rw [add_transactions, add_currentBalance, signedSum_append, h.balance]
    simp [signedSum]

/-- What `undoLastTransaction` does to a state satisfying the invariant whose
undo stack is `x :: rest`: the last stored transaction is `x` and it is removed. -/
theorem undo_transactions {s : PersonalFinanceManager} (h : Inv s) {x : Transaction}
    {rest : List Transaction} (hu : s.undoStack = x :: rest) :
    ∃ pre, s.transactions = pre ++ [x] ∧ (undoLastTransaction s).1.transactions = pre ∧
      rest.reverse <:+ pre := by
  obtain ⟨p, hp⟩ := h.undo_suffix
  rw [hu, List.reverse_cons, ← List.append_assoc] at hp
  refine ⟨p ++ rest.reverse, hp.symm, ?_, List.suffix_append _ _⟩
  have hs := h.ids_sorted
  rw [← hp, List.pairwise_append] at hs
  have hfresh : ∀ t ∈ p ++ rest.reverse, t.id ≠ x.id := fun t ht =>
    ne_of_lt (hs.2.2 t ht x (by simp))
  have := eraseP_last_of_fresh (p ++ rest.reverse) x hfresh
  simp only [undoLastTransaction, hu, ← hp]
  exact this

theorem undo_currentBalance {s : PersonalFinanceManager} {x : Transaction}
    {rest : List Transaction} (hu : s.undoStack = x :: rest) :
    (undoLastTransaction s).1.currentBalance = s.currentBalance - signedAmount x := by
  simp only [undoLastTransaction, hu, signedAmount]
  split <;> ring

theorem undo_of_empty {s : PersonalFinanceManager} (hu : s.undoStack = []) :
    undoLastTransaction s = (s, Response.error "No transactions to undo") := by
  simp [undoLastTransaction, hu]

theorem inv_undo {s : PersonalFinanceManager} (h : Inv s) : Inv (undoLastTransaction s).1 := by
  cases hu : s.undoStack with
  | nil => rw [undo_of_empty hu]; exact h
  | cons x rest =>
    obtain ⟨pre, hpre, hts, hsuf⟩ := undo_transactions h hu
    have hnext : (undoLastTransaction s).1.nextId = s.nextId := by
      simp [undoLastTransaction, hu]
    have hstack : (undoLastTransaction s).1.undoStack = rest := by
      simp [undoLastTransaction, hu]
    constructor
    · intro t ht
      rw [hts] at ht
      rw [hnext]
      exact h.ids_lt t (by rw [hpre]; exact List.mem_append_left _ ht)
    · rw [hts]
      have := h.ids_sorted
      rw [hpre, List.pairwise_append] at this
      exact this.1
    · rw [hts, hstack]; exact hsuf
    · rw [hts, undo_currentBalance hu, h.balance, hpre, signedSum_append]
      simp [signedSum]

theorem reachable_inv {s : PersonalFinanceManager} (h : Reachable s) : Inv s := by
  induction h with
  | new => exact inv_new
  | add a c d dt i _ ih => exact inv_add ih a c d dt i
  | undo _ ih => exact inv_undo ih

theorem addAll_reachable {s : PersonalFinanceManager} (h : Reachable s)
    (as : List (ℚ × CppString × CppString × CppString × Bool)) : Reachable (addAll s as) := by
  induction as generalizing s with
  | nil => exact h
  | cons a as ih => exact ih (Reachable.add _ _ _ _ _ h)

/-! ## Lemmas on `UMap` -/

namespace UMap

variable {κ ν : Type} [DecidableEq κ]

theorem find_eq_none_iff (m : UMap κ ν) (k : κ) :
    find m k = none ↔ k ∉ m.map Prod.fst := by
  induction m with
  | nil => simp [find]
  | cons e m ih =>
    obtain ⟨k', v⟩ := e
    by_cases hk : k' = k
    · simp [find, hk]
    · simp [find, hk, ih, Ne.symm hk]

theorem find_modify [Zero ν] (m : UMap κ ν) (k k' : κ) (f : ν → ν) :
    find (modify m k f) k' = if k' = k then some (f (get m k)) else find m k' := by
  induction m with
  | nil =>
    by_cases h : k = k'
    · subst h; simp [modify, find, get]
    · simp [modify, find, h, Ne.symm h]
  | cons e m ih =>
    obtain ⟨k₀, v⟩ := e
    by_cases h0 : k₀ = k
    · subst h0
      by_cases h : k' = k₀
      · subst h; simp [modify, find, get]
      · simp [modify, find, h, Ne.symm h]
    · by_cases h : k' = k
      · subst h
        simp only [modify, h0, if_false, find, ih, if_true, get]
      · simp only [modify, h0, if_false, find, ih, h]

theorem get_modify [Zero ν] (m : UMap κ ν) (k : κ) (f : ν → ν) :
    get (modify m k f) k = f (get m k) := by
  simp [get, find_modify]

theorem find_erase (m : UMap κ ν) (k k' : κ) :
    find (erase m k) k' = if k' = k then none else find m k' := by
  induction m with
  | nil => simp [erase, find]
  | cons e m ih =>
    obtain ⟨k₀, v⟩ := e
    unfold erase at ih ⊢
    by_cases h0 : k₀ = k
    · subst h0
      by_cases h : k' = k₀
      · subst h; simpa [List.filter] using ih
      · simp only [List.filter, ne_eq, not_true_eq_false, decide_False, ih, h, if_false, find,
          Ne.symm h]
    · by_cases h : k' = k
      · subst h
        simp only [List.filter, ne_eq, h0, not_false_eq_true, decide_True, find, if_false, ih,
          if_true]
      · simp only [List.filter, ne_eq, h0, not_false_eq_true, decide_True, find, ih, h, if_false]

theorem keys_modify [Zero ν] (m : UMap κ ν) (k : κ) (f : ν → ν) :
    (modify m k f).map Prod.fst
      = if k ∈ m.map Prod.fst then m.map Prod.fst else m.map Prod.fst ++ [k] := by
  induction m with
  | nil => simp [modify]
  | cons e m ih =>
    obtain ⟨k₀, v⟩ := e
    by_cases h0 : k₀ = k
    · simp [modify, h0]
    · simp only [modify, h0, if_false, List.map_cons, ih, List.mem_cons, Ne.symm h0, false_or]
      split <;> simp

theorem nodup_keys_modify [Zero ν] {m : UMap κ ν} (h : (m.map Prod.fst).Nodup) (k : κ)
    (f : ν → ν) : ((modify m k f).map Prod.fst).Nodup := by
  rw [keys_modify]
  split
  · exact h
  · rename_i hk
    exact List.Nodup.append h (by simp) (by simpa using hk)

theorem nodup_keys_erase {m : UMap κ ν} (h : (m.map Prod.fst).Nodup) (k : κ) :
    ((erase m k).map Prod.fst).Nodup :=
  (List.Nodup.sublist (List.Sublist.map _ (List.filter_sublist _)) h)

theorem erase_of_absent (m : UMap κ ν) (k : κ) (h : find m k = none) : erase m k = m := by
  have hk := (find_eq_none_iff m k).1 h
  unfold erase
  rw [List.filter_eq_self]
  intro e he
  have : e.1 ≠ k := fun heq => hk (heq ▸ List.mem_map_of_mem Prod.fst he)
  simpa using this

theorem erase_cons_same (m : UMap κ ν) (k : κ) (v : ν) : erase ((k, v) :: m) k = erase m k := by
  simp [erase, List.filter]

theorem erase_cons_other (m : UMap κ ν) (k k₀ : κ) (v : ν) (h : k₀ ≠ k) :
    erase ((k₀, v) :: m) k = (k₀, v) :: erase m k := by
  simp [erase, List.filter, h]

end UMap

theorem sum_values_modify (m : UMap CppString ℚ) (k : CppString) (f : ℚ → ℚ) :
    ((UMap.modify m k f).map Prod.snd).sum
      = (m.map Prod.snd).sum + (f (UMap.get m k) - UMap.get m k) := by
  induction m with
  | nil => simp [UMap.modify, UMap.get, UMap.find]
  | cons e m ih =>
    obtain ⟨k₀, v⟩ := e
    by_cases h0 : k₀ = k
    · simp [UMap.modify, h0, UMap.get, UMap.find]
      ring
    · simp only [UMap.modify, h0, if_false, List.map_cons, List.sum_cons, ih]
      simp only [UMap.get, UMap.find, h0, if_false]
      ring

theorem sum_values_erase (m : UMap CppString ℚ) (k : CppString)
    (h : (m.map Prod.fst).Nodup) :
    ((UMap.erase m k).map Prod.snd).sum = (m.map Prod.snd).sum - UMap.get m k := by
  induction m with
  | nil => simp [UMap.erase, UMap.get, UMap.find]
  | cons e m ih =>
    obtain ⟨k₀, v⟩ := e
    simp only [List.map_cons, List.nodup_cons] at h
    by_cases h0 : k₀ = k
    · subst h0
      have hnone := (UMap.find_eq_none_iff m k₀).2 h.1
      rw [UMap.erase_cons_same, UMap.erase_of_absent m k₀ hnone]
      simp [UMap.get, UMap.find]
    · rw [UMap.erase_cons_other _ _ _ _ h0]
      simp only [List.map_cons, List.sum_cons, ih h.2]
      simp only [UMap.get, UMap.find, h0, if_false]
      ring

/-! ## Balance -/

theorem scenarioState_reachable : Reachable scenarioState :=
  addAll_reachable Reachable.new scenarioAppends

theorem undo_of_cons {s : PersonalFinanceManager} {x : Transaction} {rest : List Transaction}
    (hu : s.undoStack = x :: rest) :
    (undoLastTransaction s).2 = Response.success (s.currentBalance - signedAmount x) ∧
    (undoLastTransaction s).1.undoStack = rest ∧
    (undoLastTransaction s).1.categoryExpenses =
      (if x.isIncome = false then
        (if UMap.get (UMap.modify s.categoryExpenses x.category (fun v => v - x.amount))
            x.category ≤ 0 then
          UMap.erase (UMap.modify s.categoryExpenses x.category (fun v => v - x.amount))
            x.category
        else UMap.modify s.categoryExpenses x.category (fun v => v - x.amount))
      else s.categoryExpenses) := by
  refine ⟨?_, ?_, ?_⟩
  · simp only [undoLastTransaction, hu, signedAmount]
    split <;> simp
    ring
  · simp [undoLastTransaction, hu]
  · cases hx : x.isIncome <;> simp [undoLastTransaction, hu, hx]

/-- C4: `undoLastTransaction` answers `ERROR|No transactions to undo` exactly
when the undo stack is empty, it then returns the state it was given, every
other call succeeds, and the call fails on the constructed engine. -/
theorem undo_fails_iff_empty (s : PersonalFinanceManager) :
    ((undoLastTransaction s).2 = Response.error "No transactions to undo"
      ↔ s.undoStack = []) ∧
    (s.undoStack = [] → (undoLastTransaction s).1 = s) ∧
    (s.undoStack ≠ [] → ∃ b, (undoLastTransaction s).2 = Response.success b) ∧
    undoLastTransaction PersonalFinanceManager.new
      = (PersonalFinanceManager.new, Response.error "No transactions to undo") := by
  refine ⟨?_, ?_, ?_, rfl⟩
  · cases hu : s.undoStack with
    | nil => simp [undo_of_empty hu]
    | cons x rest => simp [(undo_of_cons hu).1]
  · intro hu
    rw [undo_of_empty hu]
  · intro hne
    cases hu : s.undoStack with
    | nil => exact absurd hu hne
    | cons x rest => exact ⟨_, (undo_of_cons hu).1⟩

/-- Witness for C4: on the constructed engine the undo stack is empty, the
call fails and the state is the one given. -/
theorem undo_fails_iff_empty_witness :
    PersonalFinanceManager.new.undoStack = [] ∧
    (undoLastTransaction PersonalFinanceManager.new).2
      = Response.error "No transactions to undo" ∧
    (undoLastTransaction PersonalFinanceManager.new).1 = PersonalFinanceManager.new :=
  ⟨rfl, (undo_fails_iff_empty PersonalFinanceManager.new).1.2 rfl,
   (undo_fails_iff_empty PersonalFinanceManager.new).2.1 rfl⟩

theorem categorySpend_append (xs ys : List Transaction) (c : CppString) :
    categorySpend (xs ++ ys) c = categorySpend xs c + categorySpend ys c := by
  simp [categorySpend]

theorem categorySpend_snoc_same (pre : List Transaction) (x : Transaction)
    (hx : x.isIncome = false) :
    categorySpend (pre ++ [x]) x.category = categorySpend pre x.category + x.amount := by
  rw [categorySpend_append]
  simp [categorySpend, List.filter, hx]

theorem categorySpend_snoc_other (pre : List Transaction) (x : Transaction) (c : CppString)
    (hx : x.isIncome = true ∨ x.category ≠ c) :
    categorySpend (pre ++ [x]) c = categorySpend pre c := by
  rw [categorySpend_append]
  rcases hx with hx | hx <;> simp [categorySpend, List.filter, hx]

theorem totalExpense_snoc (pre : List Transaction) (x : Transaction) :
    totalExpense (pre ++ [x]) = totalExpense pre + (if x.isIncome then 0 else x.amount) := by
  cases hx : x.isIncome <;> simp [totalExpense, List.filter, hx]

theorem categorySpend_nonneg (ts : List Transaction) (c : CppString)
    (h : ∀ t ∈ ts, 0 ≤ t.amount) : 0 ≤ categorySpend ts c := by
  unfold categorySpend
  apply List.sum_nonneg
  intro a ha
  simp only [List.mem_map, List.mem_filter] at ha
  obtain ⟨t, ⟨ht, -⟩, rfl⟩ := ha
  exact h t ht

theorem exists_expense_of_categorySpend_ne_zero (ts : List Transaction) (c : CppString)
    (h : categorySpend ts c ≠ 0) : ∃ t ∈ ts, t.isIncome = false ∧ t.category = c := by
  by_contra hno
  apply h
  unfold categorySpend
  have : ts.filter (fun t => !t.isIncome && decide (t.category = c)) = [] := by
    rw [List.filter_eq_nil_iff]
    intro t ht hcond
    simp only [Bool.and_eq_true, Bool.not_eq_true', decide_eq_true_eq] at hcond
    exact hno ⟨t, ht, hcond.1, hcond.2⟩
  simp [this]

theorem catInv_new : CatInv PersonalFinanceManager.new where
  amounts_nonneg := by simp [PersonalFinanceManager.new]
  keys_nodup := by simp [PersonalFinanceManager.new]
  recorded := by simp [PersonalFinanceManager.new, UMap.find]
  absent := by simp [PersonalFinanceManager.new, categorySpend]
  total := by simp [PersonalFinanceManager.new, totalExpense]

theorem add_categoryExpenses (s : PersonalFinanceManager) (a : ℚ) (c d dt : CppString)
    (i : Bool) :
    (addTransaction s a c d dt i).1.categoryExpenses
      = if i = false then UMap.modify s.categoryExpenses c (fun v => v + a)
        else s.categoryExpenses := by
  cases i <;> simp [addTransaction]

theorem get_eq_categorySpend {s : PersonalFinanceManager} (h : CatInv s) (c : CppString) :
    UMap.get s.categoryExpenses c = categorySpend s.transactions c := by
  unfold UMap.get
  cases hf : UMap.find s.categoryExpenses c with
  | none => simp [h.absent c hf]
  | some v => simp [(h.recorded c v hf).1]

theorem catInv_add {s : PersonalFinanceManager} (h : CatInv s) (a : ℚ) (c d dt : CppString)
    (i : Bool) (ha : 0 ≤ a) : CatInv (addTransaction s a c d dt i).1 := by
  have hget := get_eq_categorySpend h
  cases i with
  | true =>
    have hsp : ∀ c', categorySpend (s.transactions ++ [⟨s.nextId, a, c, d, dt, true⟩]) c'
        = categorySpend s.transactions c' := fun c' =>
      categorySpend_snoc_other _ _ c' (Or.inl rfl)
    constructor
    · intro t ht
      rw [add_transactions, List.mem_append] at ht
      rcases ht with ht | ht
      · exact h.amounts_nonneg t ht
      · simp at ht; subst ht; exact ha
    · rw [add_categoryExpenses]; exact h.keys_nodup
    · intro c' v hv
      rw [add_categoryExpenses] at hv
      rw [add_transactions, hsp]
      obtain ⟨h1, t, ht, h2⟩ := h.recorded c' v hv
      exact ⟨h1, t, List.mem_append_left _ ht, h2⟩
    · intro c' hv
      rw [add_categoryExpenses] at hv
      rw [add_transactions, hsp]
      exact h.absent c' hv
    · rw [add_categoryExpenses, add_transactions, totalExpense_snoc]
      simpa using h.total
  | false =>
    have hsame : categorySpend (s.transactions ++ [⟨s.nextId, a, c, d, dt, false⟩]) c
        = categorySpend s.transactions c + a :=
      categorySpend_snoc_same _ ⟨s.nextId, a, c, d, dt, false⟩ rfl
    have hother : ∀ c', c' ≠ c →
        categorySpend (s.transactions ++ [⟨s.nextId, a, c, d, dt, false⟩]) c'
          = categorySpend s.transactions c' := fun c' hc' =>
      categorySpend_snoc_other _ _ c' (Or.inr (Ne.symm hc'))
    constructor
    · intro t ht
      rw [add_transactions, List.mem_append] at ht
      rcases ht with ht | ht
      · exact h.amounts_nonneg t ht
      · simp at ht; subst ht; exact ha
    · rw [add_categoryExpenses]; exact UMap.nodup_keys_modify h.keys_nodup _ _
    · intro c' v hv
      rw [add_categoryExpenses, if_pos rfl, UMap.find_modify] at hv
      rw [add_transactions]
      by_cases hc' : c' = c
      · subst hc'
        rw [if_pos rfl] at hv
        cases hv
        refine ⟨by rw [hsame, hget], ⟨s.nextId, a, c', d, dt, false⟩, by simp, rfl, rfl⟩
      · rw [if_neg hc'] at hv
        obtain ⟨h1, t, ht, h2⟩ := h.recorded c' v hv
        exact ⟨by rw [hother c' hc']; exact h1, t, List.mem_append_left _ ht, h2⟩
    · intro c' hv
      rw [add_categoryExpenses, if_pos rfl, UMap.find_modify] at hv
      rw [add_transactions]
      by_cases hc' : c' = c
      · rw [if_pos hc'] at hv; cases hv
      · rw [if_neg hc'] at hv
        rw [hother c' hc']; exact h.absent c' hv
    · rw [add_categoryExpenses, if_pos rfl, add_transactions, totalExpense_snoc,
        sum_values_modify, h.total]
      simp

theorem catInv_undo {s : PersonalFinanceManager} (hinv : Inv s) (h : CatInv s) :
    CatInv (undoLastTransaction s).1 := by
  cases hu : s.undoStack with
  | nil => rw [undo_of_empty hu]; exact h
  | cons x rest =>
    obtain ⟨pre, hpre, hts, -⟩ := undo_transactions hinv hu
    obtain ⟨-, -, hcat⟩ := undo_of_cons hu
    have hget := get_eq_categorySpend h
    have hnn : ∀ t ∈ pre, 0 ≤ t.amount := fun t ht =>
      h.amounts_nonneg t (by rw [hpre]; exact List.mem_append_left _ ht)
    have hmem : ∀ c', (x.isIncome = true ∨ x.category ≠ c') →
        (∃ t ∈ s.transactions, t.isIncome = false ∧ t.category = c') →
        ∃ t ∈ pre, t.isIncome = false ∧ t.category = c' := by
      rintro c' hx ⟨t, ht, h1, h2⟩
      rw [hpre, List.mem_append] at ht
      rcases ht with ht | ht
      · exact ⟨t, ht, h1, h2⟩
      · simp at ht; subst ht
        rcases hx with hx | hx
        · rw [hx] at h1; cases h1
        · exact absurd h2 hx
    cases hx : x.isIncome with
    | true =>
      rw [hx] at hcat
      simp only [Bool.true_eq_false, if_false] at hcat
      have hsp : ∀ c', categorySpend s.transactions c' = categorySpend pre c' := fun c' => by
        rw [hpre]; exact categorySpend_snoc_other _ _ c' (Or.inl hx)
      constructor
      · rw [hts]; exact hnn
      · rw [hcat]; exact h.keys_nodup
      · intro c' v hv
        rw [hcat] at hv
        rw [hts, ← hsp]
        exact ⟨(h.recorded c' v hv).1, hmem c' (Or.inl hx) (h.recorded c' v hv).2⟩
      · intro c' hv
        rw [hcat] at hv
        rw [hts, ← hsp]
        exact h.absent c' hv
      · rw [hcat, hts, h.total, hpre, totalExpense_snoc, hx]
        simp
    | false =>
      rw [hx] at hcat
      simp only [if_true, UMap.get_modify] at hcat
      have hsame : categorySpend s.transactions x.category
          = categorySpend pre x.category + x.amount := by
        rw [hpre]; exact categorySpend_snoc_same _ _ hx
      have hother : ∀ c', c' ≠ x.category →
          categorySpend s.transactions c' = categorySpend pre c' := fun c' hc' => by
        rw [hpre]; exact categorySpend_snoc_other _ _ c' (Or.inr (Ne.symm hc'))
      have hg : UMap.get s.categoryExpenses x.category - x.amount
          = categorySpend pre x.category := by
        rw [hget, hsame]; ring
      have hpos := categorySpend_nonneg pre x.category hnn
      have htot : totalExpense s.transactions = totalExpense pre + x.amount := by
        rw [hpre, totalExpense_snoc, hx]; simp
      rw [hg] at hcat
      have hnd1 := UMap.nodup_keys_modify h.keys_nodup x.category (fun v => v - x.amount)
      have hsum1 := sum_values_modify s.categoryExpenses x.category (fun v => v - x.amount)
      by_cases hle : categorySpend pre x.category ≤ 0
      · rw [if_pos hle] at hcat
        have hzero : categorySpend pre x.category = 0 := le_antisymm hle hpos
        constructor
        · rw [hts]; exact hnn
        · rw [hcat]; exact UMap.nodup_keys_erase hnd1 _
        · intro c' v hv
          rw [hcat, UMap.find_erase] at hv
          by_cases hc' : c' = x.category
          · rw [if_pos hc'] at hv; cases hv
          · rw [if_neg hc', UMap.find_modify, if_neg hc'] at hv
            rw [hts, ← hother c' hc']
            exact ⟨(h.recorded c' v hv).1,
              hmem c' (Or.inr (Ne.symm hc')) (h.recorded c' v hv).2⟩
        · intro c' hv
          rw [hts]
          by_cases hc' : c' = x.category
          · rw [hc']; exact hzero
          · rw [hcat, UMap.find_erase, if_neg hc', UMap.find_modify, if_neg hc'] at hv
            rw [← hother c' hc']
            exact h.absent c' hv
        · rw [hcat, hts, sum_values_erase _ _ hnd1, UMap.get_modify, hg, hzero, hsum1,
            h.total, htot]
          have := hg
          rw [hzero] at this
          linarith
      · rw [if_neg hle] at hcat
        constructor
        · rw [hts]; exact hnn
        · rw [hcat]; exact hnd1
        · intro c' v hv
          rw [hcat, UMap.find_modify] at hv
          rw [hts]
          by_cases hc' : c' = x.category
          · rw [if_pos hc', hg] at hv
            cases hv
            subst hc'
            exact ⟨rfl, exists_expense_of_categorySpend_ne_zero pre _
              (fun h0 => hle (le_of_eq h0))⟩
          · rw [if_neg hc'] at hv
            rw [← hother c' hc']
            exact ⟨(h.recorded c' v hv).1,
              hmem c' (Or.inr (Ne.symm hc')) (h.recorded c' v hv).2⟩
        · intro c' hv
          rw [hcat, UMap.find_modify] at hv
          rw [hts]
          by_cases hc' : c' = x.category
          · rw [if_pos hc'] at hv; cases hv
          · rw [if_neg hc'] at hv
            rw [← hother c' hc']
            exact h.absent c' hv
        · rw [hcat, hts, hsum1, h.total, htot]
          linarith

theorem reachableNonneg_reachable {s : PersonalFinanceManager} (h : ReachableNonneg s) :
    Reachable s := by
  induction h with
  | new => exact Reachable.new
  | add a c d dt i _ _ ih => exact Reachable.add a c d dt i ih
  | undo _ ih => exact Reachable.undo ih

theorem reachableNonneg_catInv {s : PersonalFinanceManager} (h : ReachableNonneg s) :
    CatInv s := by
  induction h with
  | new => exact catInv_new
  | add a c d dt i ha _ ih => exact catInv_add ih a c d dt i ha
  | undo hs ih => exact catInv_undo (reachable_inv (reachableNonneg_reachable hs)) ih

theorem addAll_reachableNonneg {s : PersonalFinanceManager} (h : ReachableNonneg s)
    (as : List (ℚ × CppString × CppString × CppString × Bool)) (hnn : ∀ a ∈ as, 0 ≤ a.1) :
    ReachableNonneg (addAll s as) := by
  induction as generalizing s with
  | nil => exact h
  | cons a as ih =>
    exact ih (ReachableNonneg.add _ _ _ _ _ (hnn a (List.mem_cons_self _ _)) h)
      (fun b hb => hnn b (List.mem_cons_of_mem _ hb))

theorem undoTimes_reachableNonneg {s : PersonalFinanceManager} (h : ReachableNonneg s)
    (n : Nat) : ReachableNonneg (undoTimes s n) := by
  induction n generalizing s with
  | zero => exact h
  | succ n ih => exact ih (ReachableNonneg.undo h)

theorem addAll_full (s : PersonalFinanceManager)
    (as : List (ℚ × CppString × CppString × CppString × Bool))
    (hfull : s.undoStack.reverse = s.transactions)
    (hlen : s.transactions.length + as.length ≤ 5) :
    (addAll s as).undoStack.reverse = (addAll s as).transactions ∧
    (addAll s as).transactions.length = s.transactions.length + as.length := by
  induction as generalizing s with
  | nil => exact ⟨hfull, rfl⟩
  | cons a as ih =>
    simp only [List.length_cons] at hlen
    have hul : s.undoStack.length = s.transactions.length := by
      rw [← hfull, List.length_reverse]
    have h1 : (addTransaction s a.1 a.2.1 a.2.2.1 a.2.2.2.1 a.2.2.2.2).1.undoStack.reverse
        = (addTransaction s a.1 a.2.1 a.2.2.1 a.2.2.2.1 a.2.2.2.2).1.transactions := by
      rw [add_undoStack, add_transactions, List.take_of_length_le]
      · rw [List.reverse_cons, hfull]
      · simp only [List.length_cons]; omega
    have h2 : (addTransaction s a.1 a.2.1 a.2.2.1 a.2.2.2.1 a.2.2.2.2).1.transactions.length
        = s.transactions.length + 1 := by
      rw [add_transactions]; simp
    obtain ⟨r1, r2⟩ := ih _ h1 (by rw [h2]; omega)
    refine ⟨r1, ?_⟩
    rw [addAll, r2, h2, List.length_cons]
    omega

theorem undoTimes_full (n : Nat) (s : PersonalFinanceManager) (hinv : Inv s)
    (hfull : s.undoStack.reverse = s.transactions) (hlen : s.transactions.length = n) :
    (undoTimes s n).transactions = [] := by
  induction n generalizing s with
  | zero => exact List.length_eq_zero.mp hlen
  | succ n ih =>
    cases hu : s.undoStack with
    | nil =>
      rw [hu] at hfull
      rw [← hfull] at hlen
      simp at hlen
    | cons x rest =>
      obtain ⟨pre, hpre, hts, -⟩ := undo_transactions hinv hu
      have hrest : rest.reverse = pre := by
        rw [hu, List.reverse_cons, hpre] at hfull
        exact List.append_inj_left' hfull rfl
      refine ih _ (inv_undo hinv) ?_ ?_
      · rw [(undo_of_cons hu).2.1, hts, hrest]
      · rw [hts]
        rw [hpre] at hlen
        simpa using hlen

/-- Counterexample to C3 as stated: six appends of income 1 followed by six
undos leave one transaction and balance 1, because only five are kept for undo. -/
theorem six_appends_six_undos_leave_one :
    sixAppends.length = 6 ∧
    (undoTimes (addAll PersonalFinanceManager.new sixAppends) 6).transactions.length = 1 ∧
    (undoTimes (addAll PersonalFinanceManager.new sixAppends) 6).currentBalance = 1 ∧
    (undoLastTransaction
      (undoTimes (addAll PersonalFinanceManager.new sixAppends) 5)).2
        = Response.error "No transactions to undo" := by
  refine ⟨by decide, by decide!, by decide!, by decide!⟩

/-- C3 (amended): with amounts taken as exact numbers, for at most five
appends with non-negative amounts on the constructed engine, undoing as many times as was appended leaves balance 0, an
empty `categoryExpenses` mapping and no transaction, as in the initial state. -/
theorem roundtrip_within_undo_capacity
    (as : List (ℚ × CppString × CppString × CppString × Bool))
    (hlen : as.length ≤ 5) (hnn : ∀ a ∈ as, 0 ≤ a.1) :
    (undoTimes (addAll PersonalFinanceManager.new as) as.length).currentBalance
      = PersonalFinanceManager.new.currentBalance ∧
    (undoTimes (addAll PersonalFinanceManager.new as) as.length).currentBalance = 0 ∧
    (undoTimes (addAll PersonalFinanceManager.new as) as.length).categoryExpenses = [] ∧
    (undoTimes (addAll PersonalFinanceManager.new as) as.length).transactions.length = 0 := by
  have hr : ReachableNonneg (undoTimes (addAll PersonalFinanceManager.new as) as.length) :=
    undoTimes_reachableNonneg (addAll_reachableNonneg ReachableNonneg.new as hnn) _
  obtain ⟨f1, f2⟩ := addAll_full PersonalFinanceManager.new as rfl
    (by simpa [PersonalFinanceManager.new] using hlen)
  have hts : (undoTimes (addAll PersonalFinanceManager.new as) as.length).transactions = [] :=
    undoTimes_full _ _
      (reachable_inv (reachableNonneg_reachable
        (addAll_reachableNonneg ReachableNonneg.new as hnn)))
      f1 (by rw [f2]; simp [PersonalFinanceManager.new])
  have hbal := (reachable_inv (reachableNonneg_reachable hr)).balance
  rw [hts] at hbal
  have hcat : (undoTimes (addAll PersonalFinanceManager.new as) as.length).categoryExpenses
      = [] := by
    have hci := reachableNonneg_catInv hr
    cases hm : (undoTimes (addAll PersonalFinanceManager.new as) as.length).categoryExpenses
      with
    | nil => rfl
    | cons e m =>
      obtain ⟨-, t, ht, -⟩ := hci.recorded e.1 e.2 (by rw [hm]; simp [UMap.find])
      rw [hts] at ht
      cases ht
  refine ⟨?_, ?_, hcat, by rw [hts]; rfl⟩
  · rw [hbal]; rfl
  · rw [hbal]; rfl

/-- Witness for C3 (amended): the scenario's two appends followed by two undos. -/
theorem roundtrip_within_undo_capacity_witness :
    scenarioAppends.length ≤ 5 ∧ (∀ a ∈ scenarioAppends, 0 ≤ a.1) ∧
    (undoTimes (addAll PersonalFinanceManager.new scenarioAppends)
      scenarioAppends.length).categoryExpenses = [] :=
  have hnn : ∀ a ∈ scenarioAppends, (0 : ℚ) ≤ a.1 := by
    intro a ha
    simp only [scenarioAppends, List.mem_cons, List.mem_singleton, List.not_mem_nil,
      or_false] at ha
    rcases ha with rfl | rfl <;> norm_num
  ⟨by decide, hnn, (roundtrip_within_undo_capacity scenarioAppends (by decide) hnn).2.2.1⟩

/-! ## Ranking -/

namespace PriorityQueue

variable {α : Type} [LinearOrder α]

/-- Popping a priority queue `n` times lists the first `n` elements of its
contents sorted in descending order. -/
theorem popLoop_eq_take_sort (n : Nat) (q : PriorityQueue α) :
    popLoop n q = (List.insertionSort (fun a b => a ≥ b) q).take n := by
  induction n generalizing q with
  | zero => simp [popLoop]
  | succ n ih =>
    unfold popLoop
    cases h : top q with
    | none =>
      have : q = [] := List.maximum_eq_bot.mp h
      subst this
      simp
    | some x =>
      have hx : x ∈ q := List.maximum_mem h
      have hmax : ∀ y ∈ q, y ≤ x := fun y hy => List.le_maximum_of_mem hy h
      have hpop : pop q = List.erase q x := by simp [pop, h]
      have hsort : List.insertionSort (fun a b => a ≥ b) q
          = x :: List.insertionSort (fun a b => a ≥ b) (List.erase q x) := by
        apply List.eq_of_perm_of_sorted (r := fun a b => a ≥ b)
        · exact (List.perm_insertionSort _ q).trans
            ((List.perm_cons_erase hx).trans
              (List.Perm.cons x (List.perm_insertionSort _ _).symm))
        · exact List.sorted_insertionSort _ q
        · refine List.sorted_cons.mpr ⟨?_, List.sorted_insertionSort _ _⟩
          intro b hb
          have hb1 : b ∈ List.erase q x := (List.perm_insertionSort _ _).subset hb
          exact hmax b (List.mem_of_mem_erase hb1)
      simp only [hpop, hsort, List.take_succ_cons, ih]

end PriorityQueue

/-- The order of the heap elements is the order `operator<` puts on pairs. -/
theorem toLex_lt_iff_pairLess (a b : ℚ × CppString) : toLex a < toLex b ↔ pairLess a b := by
  rw [Prod.Lex.lt_iff, pairLess]
  constructor
  · rintro (h | ⟨h1, h2⟩)
    · exact Or.inl h
    · exact Or.inr ⟨by rw [h1]; exact lt_irrefl _, h2⟩
  · rintro (h | ⟨h1, h2⟩)
    · exact Or.inl h
    · rcases lt_or_eq_of_le (not_lt.mp h1) with h | h
      · exact Or.inl h
      · exact Or.inr ⟨h, h2⟩

theorem expenseHeap_eq (ts : List Transaction) :
    expenseHeap ts = ((expensePairs ts).map toLex).reverse := by
  have key : ∀ (q : PriorityQueue (Lex (ℚ × CppString))) (l : List Transaction),
      l.foldl (fun q t =>
          if !t.isIncome then PriorityQueue.push q (toLex (t.amount, t.description)) else q) q
        = ((expensePairs l).map toLex).reverse ++ q := by
    intro q l
    induction l generalizing q with
    | nil => simp [expensePairs]
    | cons t l ih =>
      rw [List.foldl_cons, ih]
      cases ht : t.isIncome <;> simp [expensePairs, List.filter, ht, PriorityQueue.push]
  rw [expenseHeap, key]
  simp

theorem categoryHeap_eq (m : UMap CppString ℚ) :
    categoryHeap m = (m.map (fun cat => toLex (cat.2, cat.1))).reverse := by
  have key : ∀ (q : PriorityQueue (Lex (ℚ × CppString))) (l : UMap CppString ℚ),
      l.foldl (fun q cat => PriorityQueue.push q (toLex (cat.2, cat.1))) q
        = (l.map (fun cat => toLex (cat.2, cat.1))).reverse ++ q := by
    intro q l
    induction l generalizing q with
    | nil => simp
    | cons t l ih =>
      rw [List.foldl_cons, ih]
      simp [PriorityQueue.push]
  rw [categoryHeap, key]
  simp

theorem expenseBefore_iff (a b : Lex (ℚ × CppString)) :
    expenseBefore (ofLex a) (ofLex b) ↔ a ≥ b := by
  show _ ↔ toLex (ofLex b) ≤ toLex (ofLex a)
  rw [Prod.Lex.le_iff, expenseBefore]
  constructor
  · rintro (h | ⟨h1, h2⟩)
    · exact Or.inl h
    · exact Or.inr ⟨h1.symm, h2⟩
  · rintro (h | ⟨h1, h2⟩)
    · exact Or.inl h
    · exact Or.inr ⟨h1.symm, h2⟩

/-- C6: `getTopExpenses k` is empty for `k ≤ 0` and has `min(k, number of
stored expenses)` entries otherwise; it is sorted by amount descending, equal
amounts by description descending; together with some list `rest` of left-out
entries it is a rearrangement of the stored expense pairs, and no left-out
entry has a larger amount than a returned one. -/
theorem getTopExpenses_spec (s : PersonalFinanceManager) (k : Int) :
    (k ≤ 0 → getTopExpenses s k = []) ∧
    ((getTopExpenses s k).length : Int) ≤ max k 0 ∧
    (0 < k → ((getTopExpenses s k).length : Int)
      = min k ((expensePairs s.transactions).length : Int)) ∧
    (getTopExpenses s k).Sorted expenseBefore ∧
    ∃ rest, (getTopExpenses s k ++ rest).Perm (expensePairs s.transactions) ∧
      ∀ x ∈ rest, ∀ y ∈ getTopExpenses s k, x.1 ≤ y.1 := by
  have hlenheap : (expenseHeap s.transactions).length = (expensePairs s.transactions).length := by
    rw [expenseHeap_eq]; simp
  have hlen : (getTopExpenses s k).length
      = min k.toNat (expensePairs s.transactions).length := by
    simp [getTopExpenses, PriorityQueue.popLoop_eq_take_sort, List.length_insertionSort,
      hlenheap]
  have hsorted := List.sorted_insertionSort (fun a b : Lex (ℚ × CppString) => a ≥ b)
    (expenseHeap s.transactions)
  have hsplit := List.take_append_drop k.toNat
    (List.insertionSort (fun a b : Lex (ℚ × CppString) => a ≥ b) (expenseHeap s.transactions))
  refine ⟨?_, ?_, ?_, ?_, ?_⟩
  · intro hk
    have : k.toNat = 0 := by omega
    simp [getTopExpenses, this, PriorityQueue.popLoop]
  · rw [hlen]; omega
  · intro hk
    rw [hlen]; omega
  · unfold getTopExpenses
    rw [PriorityQueue.popLoop_eq_take_sort, List.Sorted, List.pairwise_map]
    have := List.Pairwise.sublist (List.take_sublist k.toNat _) hsorted
    exact this.imp (fun {a b} h => (expenseBefore_iff a b).2 h)
  · refine ⟨((List.insertionSort (fun a b : Lex (ℚ × CppString) => a ≥ b)
        (expenseHeap s.transactions)).drop k.toNat).map ofLex, ?_, ?_⟩
    · unfold getTopExpenses
      rw [PriorityQueue.popLoop_eq_take_sort, ← List.map_append, hsplit]
      have h1 := (List.perm_insertionSort (fun a b : Lex (ℚ × CppString) => a ≥ b)
        (expenseHeap s.transactions)).map ofLex
      refine h1.trans ?_
      rw [expenseHeap_eq, List.map_reverse, List.map_map]
      have : (ofLex ∘ toLex : ℚ × CppString → ℚ × CppString) = id := rfl
      rw [this, List.map_id]
      exact List.reverse_perm _
    · intro x hx y hy
      unfold getTopExpenses at hy
      rw [PriorityQueue.popLoop_eq_take_sort] at hy
      obtain ⟨b, hb, rfl⟩ := List.mem_map.1 hx
      obtain ⟨a, ha, rfl⟩ := List.mem_map.1 hy
      rw [← hsplit] at hsorted
      have hab : a ≥ b := (List.pairwise_append.1 hsorted).2.2 a ha b hb
      rcases (expenseBefore_iff a b).2 hab with h | ⟨h, -⟩
      · exact le_of_lt h
      · exact le_of_eq h.symm

/-- Witness for C6: `rankingState` stores expenses of 20, 50 and 20; the two
largest are `diesel` (50) and, among the two of amount 20, `cinema`. -/
theorem getTopExpenses_spec_witness :
    (0 : Int) < 2 ∧
    ((getTopExpenses rankingState 2).length : Int)
      = min 2 ((expensePairs rankingState.transactions).length : Int) ∧
    getTopExpenses rankingState 2 = [(50, "diesel".toList), (20, "cinema".toList)] :=
  ⟨by decide, (getTopExpenses_spec rankingState 2).2.2.1 (by decide), by decide!⟩

theorem categoryBefore_iff (a b : CppString × ℚ) :
    categoryBefore a b ↔ toLex (a.2, a.1) ≥ toLex (b.2, b.1) := by
  show _ ↔ toLex (b.2, b.1) ≤ toLex (a.2, a.1)
  rw [Prod.Lex.le_iff, categoryBefore]
  constructor
  · rintro (h | ⟨h1, h2⟩)
    · exact Or.inl h
    · exact Or.inr ⟨h1.symm, h2⟩
  · rintro (h | ⟨h1, h2⟩)
    · exact Or.inl h
    · exact Or.inr ⟨h1.symm, h2⟩

theorem categoryBefore_total : IsTotal (CppString × ℚ) categoryBefore :=
  ⟨fun a b => by
    rw [categoryBefore_iff, categoryBefore_iff]
    exact le_total _ _⟩

theorem categoryBefore_trans : IsTrans (CppString × ℚ) categoryBefore :=
  ⟨fun a b c hab hbc => by
    rw [categoryBefore_iff] at *
    exact le_trans hbc hab⟩

theorem categoryBefore_antisymm : IsAntisymm (CppString × ℚ) categoryBefore :=
  ⟨fun a b hab hba => by
    rw [categoryBefore_iff] at *
    have h := le_antisymm hba hab
    have h' : (a.2, a.1) = (b.2, b.1) := toLex.injective h
    simp only [Prod.mk.injEq] at h'
    exact Prod.ext h'.2 h'.1⟩

theorem sorted_sort_categoryBefore (m : List (CppString × ℚ)) :
    (m.insertionSort categoryBefore).Sorted categoryBefore :=
  haveI := categoryBefore_total
  haveI := categoryBefore_trans
  List.sorted_insertionSort _ _

theorem eq_of_perm_of_sorted_categoryBefore {l₁ l₂ : List (CppString × ℚ)} (hp : l₁.Perm l₂)
    (h₁ : l₁.Sorted categoryBefore) (h₂ : l₂.Sorted categoryBefore) : l₁ = l₂ :=
  haveI := categoryBefore_antisymm
  List.eq_of_perm_of_sorted hp h₁ h₂

theorem getTopCategories_eq_spec (s : PersonalFinanceManager) (n : Nat) :
    (PriorityQueue.popLoop n (categoryHeap s.categoryExpenses)).map
        (fun p => ((ofLex p).2, (ofLex p).1))
      = specTopCategories s.categoryExpenses n := by
  rw [PriorityQueue.popLoop_eq_take_sort, specTopCategories, List.map_take]
  have hmin : List.take (min n s.categoryExpenses.length)
        (List.insertionSort categoryBefore s.categoryExpenses)
      = List.take n (List.insertionSort categoryBefore s.categoryExpenses) := by
    rw [← List.length_insertionSort categoryBefore s.categoryExpenses, List.take_eq_take]
    simp
  rw [hmin]
  congr 1
  apply eq_of_perm_of_sorted_categoryBefore
  · have h1 := (List.perm_insertionSort (fun a b : Lex (ℚ × CppString) => a ≥ b)
      (categoryHeap s.categoryExpenses)).map (fun p => ((ofLex p).2, (ofLex p).1))
    refine h1.trans (List.Perm.trans ?_ (List.perm_insertionSort _ _).symm)
    rw [categoryHeap_eq, List.map_reverse, List.map_map]
    have : ((fun p : Lex (ℚ × CppString) => ((ofLex p).2, (ofLex p).1))
        ∘ (fun cat : CppString × ℚ => toLex (cat.2, cat.1))) = id := rfl
    rw [this, List.map_id]
    exact List.reverse_perm _
  · rw [List.Sorted, List.pairwise_map]
    refine List.Pairwise.imp ?_
      (List.sorted_insertionSort (fun a b : Lex (ℚ × CppString) => a ≥ b) _)
    intro a b h
    exact (categoryBefore_iff ((ofLex a).2, (ofLex a).1) ((ofLex b).2, (ofLex b).1)).2 h
  · exact sorted_sort_categoryBefore _

/-- C7: for `k ≥ 0`, `getTopCategories k` is the list of the first
`min(k, number of categories)` entries of `categoryExpenses` sorted by total
descending, equal totals by category name descending; a state that differs
only in the iteration order of `categoryExpenses` gives the same answer. -/
theorem getTopCategories_spec (s : PersonalFinanceManager) (k : Int) (hk : 0 ≤ k) :
    getTopCategories s k = specTopCategories s.categoryExpenses k.toNat ∧
    ((getTopCategories s k).length : Int) = min k (s.categoryExpenses.length : Int) ∧
    (getTopCategories s k).Sorted categoryBefore ∧
    ∀ m, m.Perm s.categoryExpenses →
      getTopCategories { s with categoryExpenses := m } k = getTopCategories s k := by
  have h1 : ∀ t : PersonalFinanceManager,
      getTopCategories t k = specTopCategories t.categoryExpenses k.toNat := fun t =>
    getTopCategories_eq_spec t k.toNat
  refine ⟨h1 s, ?_, ?_, ?_⟩
  · rw [h1, specTopCategories, List.length_take, List.length_insertionSort]
    omega
  · rw [h1, specTopCategories]
    exact List.Pairwise.sublist (List.take_sublist _ _) (sorted_sort_categoryBefore _)
  · intro m hm
    rw [h1, h1, specTopCategories, specTopCategories, hm.length_eq]
    congr 1
    apply eq_of_perm_of_sorted_categoryBefore
    · exact (List.perm_insertionSort _ _).trans (hm.trans (List.perm_insertionSort _ _).symm)
    · exact sorted_sort_categoryBefore _
    · exact sorted_sort_categoryBefore _

/-- Witness for C7: in `rankingState` the totals are Fuel 50, Food 20 and
Fun 20; the two best are Fuel, then Fun (the greater name among equal totals). -/
theorem getTopCategories_spec_witness :
    (0 : Int) ≤ 2 ∧
    getTopCategories rankingState 2 = specTopCategories rankingState.categoryExpenses 2 ∧
    getTopCategories rankingState 2 = [("Fuel".toList, 50), ("Fun".toList, 20)] :=
  ⟨by decide, (getTopCategories_spec rankingState 2 (by decide)).1, by decide!⟩


/-! ## Budget analysis -/

theorem foldl_add_snd {κ : Type} (l : List (κ × ℚ)) (a : ℚ) :
    l.foldl (fun acc e => acc + e.2) a = a + (l.map Prod.snd).sum := by
  induction l generalizing a with
  | nil => simp
  | cons e l ih => rw [List.foldl_cons, ih]; simp; ring

/-- C8 (amended): with amounts taken as exact numbers, `analyzeBudget`
reports the sum of the `categoryExpenses` totals as total spending; the report is OVER exactly when that sum exceeds the budget,
with delta `total - budget`; otherwise it is UNDER with headroom
`budget - total`, which is non-negative, and 0 when the two are equal. -/
theorem analyzeBudget_spec (s : PersonalFinanceManager) (budget : ℚ) :
    ((∃ total delta top, analyzeBudget s budget = BudgetReport.over budget total delta top)
      ↔ (s.categoryExpenses.map Prod.snd).sum > budget) ∧
    ((s.categoryExpenses.map Prod.snd).sum > budget →
      ∃ top, analyzeBudget s budget
        = BudgetReport.over budget (s.categoryExpenses.map Prod.snd).sum
            ((s.categoryExpenses.map Prod.snd).sum - budget) top) ∧
    (¬ (s.categoryExpenses.map Prod.snd).sum > budget →
      analyzeBudget s budget
        = BudgetReport.under budget (s.categoryExpenses.map Prod.snd).sum
            (budget - (s.categoryExpenses.map Prod.snd).sum) ∧
      0 ≤ budget - (s.categoryExpenses.map Prod.snd).sum) ∧
    ((s.categoryExpenses.map Prod.snd).sum = budget →
      analyzeBudget s budget = BudgetReport.under budget budget 0) := by
  have htot : s.categoryExpenses.foldl (fun acc cat => acc + cat.2) 0
      = (s.categoryExpenses.map Prod.snd).sum := by
    rw [foldl_add_snd]; simp
  have hover : (s.categoryExpenses.map Prod.snd).sum > budget →
      ∃ top, analyzeBudget s budget
        = BudgetReport.over budget (s.categoryExpenses.map Prod.snd).sum
            ((s.categoryExpenses.map Prod.snd).sum - budget) top := by
    intro h
    unfold analyzeBudget
    simp only [htot, if_pos h]
    exact ⟨_, rfl⟩
  have hunder : ¬ (s.categoryExpenses.map Prod.snd).sum > budget →
      analyzeBudget s budget
        = BudgetReport.under budget (s.categoryExpenses.map Prod.snd).sum
            (budget - (s.categoryExpenses.map Prod.snd).sum) := by
    intro h
    unfold analyzeBudget
    simp only [htot, if_neg h]
  refine ⟨⟨?_, ?_⟩, hover, ?_, ?_⟩
  · rintro ⟨total, delta, top, h⟩
    by_contra hn
    rw [hunder hn] at h
    cases h
  · intro h
    obtain ⟨top, h'⟩ := hover h
    exact ⟨_, _, top, h'⟩
  · intro h
    exact ⟨hunder h, by linarith [not_lt.mp h]⟩
  · intro h
    have := hunder (by rw [h]; exact lt_irrefl _)
    rw [h] at this
    simpa using this

/-- Witness for C8 (amended): the scenario state records a total spending of 200; with
budget 200 the report is UNDER with headroom 0, with budget 150 it is OVER by 50. -/
theorem analyzeBudget_spec_witness :
    (scenarioState.categoryExpenses.map Prod.snd).sum = 200 ∧
    analyzeBudget scenarioState 200 = BudgetReport.under 200 200 0 ∧
    analyzeBudget scenarioState 150
      = BudgetReport.over 150 200 50 [("Food".toList, 200)] :=
  ⟨by decide!, (analyzeBudget_spec scenarioState 200).2.2.2 (by decide!), by decide!⟩

/-! ## Ordered containers -/

theorem mem_setInsert {α : Type} [LinearOrder α] (x y : α) (l : List α) :
    y ∈ setInsert x l ↔ y = x ∨ y ∈ l := by
  induction l with
  | nil => simp [setInsert]
  | cons z l ih =>
    unfold setInsert
    split
    · simp
    · split
      · rename_i h; subst h; simp
      · simp only [List.mem_cons, ih]
        tauto

theorem sorted_setInsert {α : Type} [LinearOrder α] (x : α) (l : List α)
    (h : l.Sorted (fun a b => a < b)) : (setInsert x l).Sorted (fun a b => a < b) := by
  induction l with
  | nil => simp [setInsert]
  | cons z l ih =>
    have hz := List.sorted_cons.1 h
    unfold setInsert
    split
    · rename_i hxz
      refine List.sorted_cons.2 ⟨?_, h⟩
      intro b hb
      rcases List.mem_cons.1 hb with hb | hb
      · rw [hb]; exact hxz
      · exact lt_trans hxz (hz.1 b hb)
    · split
      · exact h
      · rename_i h1 h2
        refine List.sorted_cons.2 ⟨?_, ih hz.2⟩
        intro b hb
        rcases (mem_setInsert x b l).1 hb with hb | hb
        · rw [hb]; exact lt_of_le_of_ne (not_lt.1 h1) (Ne.symm h2)
        · exact hz.1 b hb

/-- Updating an ordered map that tabulates `g` over sorted keys: the key is
inserted in order, the value at the key becomes `f (g k)` and the other
values stay. -/
theorem modify_tabulate {κ ν : Type} [LinearOrder κ] (dflt : ν) (keys : List κ) (g g' : κ → ν)
    (k : κ) (f : ν → ν) (hs : keys.Sorted (fun a b => a < b)) (hd : k ∉ keys → g k = dflt)
    (hk : g' k = f (g k)) (hother : ∀ k', k' ≠ k → g' k' = g k') :
    SMap.modify dflt (tabulate keys g) k f = tabulate (setInsert k keys) g' := by
  induction keys with
  | nil =>
    simp [tabulate, SMap.modify, setInsert, hd, hk]
  | cons k₀ keys ih =>
    have hsk := List.sorted_cons.1 hs
    by_cases h1 : k < k₀
    · have hnot : k ∉ k₀ :: keys := by
        intro hmem
        rcases List.mem_cons.1 hmem with h | h
        · exact absurd h (ne_of_lt h1)
        · exact absurd (hsk.1 k h) (not_lt.2 (le_of_lt h1))
      have htail : (k₀ :: keys).map (fun k' => (k', g' k'))
          = (k₀ :: keys).map (fun k' => (k', g k')) := by
        apply List.map_congr_left
        intro k' hk'
        have : k' ≠ k := fun h => hnot (h ▸ hk')
        simp [hother k' this]
      simp only [List.map_cons] at htail
      simp only [tabulate, List.map_cons, SMap.modify, h1, if_true, setInsert, hk, hd hnot,
        htail]
    · by_cases h2 : k = k₀
      · subst h2
        have htail : keys.map (fun k' => (k', g' k')) = keys.map (fun k' => (k', g k')) := by
          apply List.map_congr_left
          intro k' hk'
          have : k' ≠ k := ne_of_gt (hsk.1 k' hk')
          simp [hother k' this]
        simp only [tabulate, List.map_cons, SMap.modify, h1, if_false, if_true, setInsert,
          hk, htail]
      · have hd' : k ∉ keys → g k = dflt := fun hn =>
          hd (fun hmem => (List.mem_cons.1 hmem).elim h2 hn)
        have := ih hsk.2 hd'
        simp only [tabulate] at this
        simp only [tabulate, List.map_cons, SMap.modify, h1, h2, if_false, setInsert, this,
          hother k₀ (Ne.symm h2)]

/-! ## Monthly average -/

theorem monthTotal_snoc (pre : List Transaction) (x : Transaction) (ym : CppString) :
    monthTotal (pre ++ [x]) ym
      = monthTotal pre ym
        + (if x.isIncome = false ∧ x.date.take 7 = ym then x.amount else 0) := by
  unfold monthTotal
  rw [List.filter_append, List.map_append, List.sum_append]
  congr 1
  by_cases h : x.isIncome = false ∧ x.date.take 7 = ym
  · simp [List.filter, h.1, h.2]
  · rw [if_neg h]
    have : (!x.isIncome && decide (x.date.take 7 = ym)) = false := by
      cases hx : x.isIncome
      · simp only [hx, true_and] at h
        simp [h]
      · simp
    simp [List.filter, this]

/-- The grouping loop yields, for the months of the stored expenses in
ascending order, the expense total of each month. -/
theorem monthlyTotalsOf_eq (ts : List Transaction) :
    ∃ keys : List CppString, keys.Sorted (fun a b => a < b) ∧
      (∀ k, k ∈ keys ↔ ∃ t ∈ ts, t.isIncome = false ∧ t.date.take 7 = k) ∧
      monthlyTotalsOf ts = tabulate keys (monthTotal ts) := by
  have key : ∀ (l pre : List Transaction) (keys : List CppString),
      keys.Sorted (fun a b => a < b) →
      (∀ k, k ∈ keys ↔ ∃ t ∈ pre, t.isIncome = false ∧ t.date.take 7 = k) →
      ∃ keys' : List CppString, keys'.Sorted (fun a b => a < b) ∧
        (∀ k, k ∈ keys' ↔ ∃ t ∈ pre ++ l, t.isIncome = false ∧ t.date.take 7 = k) ∧
        l.foldl (fun m t =>
            if !t.isIncome then SMap.modify 0 m (t.date.take 7) (fun v => v + t.amount)
            else m) (tabulate keys (monthTotal pre))
          = tabulate keys' (monthTotal (pre ++ l)) := by
    intro l
    induction l with
    | nil =>
      intro pre keys hs hm
      exact ⟨keys, hs, by simpa using hm, by simp⟩
    | cons x l ih =>
      intro pre keys hs hm
      have happ : pre ++ x :: l = (pre ++ [x]) ++ l := by simp
      rw [List.foldl_cons, happ]
      cases hx : x.isIncome with
      | true =>
        have hmt : monthTotal (pre ++ [x]) = monthTotal pre := by
          funext ym
          rw [monthTotal_snoc]; simp [hx]
        have := ih (pre ++ [x]) keys hs (by
          intro k
          rw [hm k]
          constructor
          · rintro ⟨t, ht, h1, h2⟩
            exact ⟨t, List.mem_append_left _ ht, h1, h2⟩
          · rintro ⟨t, ht, h1, h2⟩
            rcases List.mem_append.1 ht with ht | ht
            · exact ⟨t, ht, h1, h2⟩
            · simp at ht; subst ht; rw [hx] at h1; cases h1)
        simpa [hx, hmt] using this
      | false =>
        have hd : x.date.take 7 ∉ keys → monthTotal pre (x.date.take 7) = 0 := by
          intro hn
          unfold monthTotal
          have : pre.filter (fun t => !t.isIncome && decide (t.date.take 7 = x.date.take 7))
              = [] := by
            rw [List.filter_eq_nil_iff]
            intro t ht hcond
            simp only [Bool.and_eq_true, Bool.not_eq_true', decide_eq_true_eq] at hcond
            exact hn ((hm _).2 ⟨t, ht, hcond.1, hcond.2⟩)
          simp [this]
        have hstep : SMap.modify 0 (tabulate keys (monthTotal pre)) (x.date.take 7)
            (fun v => v + x.amount)
              = tabulate (setInsert (x.date.take 7) keys) (monthTotal (pre ++ [x])) := by
          apply modify_tabulate 0 keys (monthTotal pre) (monthTotal (pre ++ [x]))
            (x.date.take 7) (fun v => v + x.amount) hs hd
          · rw [monthTotal_snoc]; simp [hx]
          · intro ym hym
            rw [monthTotal_snoc, if_neg (fun h => hym h.2.symm)]; simp
        have := ih (pre ++ [x]) (setInsert (x.date.take 7) keys)
          (sorted_setInsert _ _ hs) (by
          intro k
          rw [mem_setInsert, hm k]
          constructor
          · rintro (h | ⟨t, ht, h1, h2⟩)
            · exact ⟨x, by simp, hx, h.symm⟩
            · exact ⟨t, List.mem_append_left _ ht, h1, h2⟩
          · rintro ⟨t, ht, h1, h2⟩
            rcases List.mem_append.1 ht with ht | ht
            · exact Or.inr ⟨t, ht, h1, h2⟩
            · simp at ht; subst ht; exact Or.inl h2.symm)
        simpa [hx, hstep] using this
  have := key ts [] [] (by simp) (by simp)
  simpa [monthlyTotalsOf, tabulate, yearMonth] using this

theorem sorted_lt_eq_expenseMonths (ts : List Transaction) (keys : List CppString)
    (hs : keys.Sorted (fun a b => a < b))
    (hm : ∀ k, k ∈ keys ↔ ∃ t ∈ ts, t.isIncome = false ∧ t.date.take 7 = k) :
    keys = expenseMonths ts := by
  apply List.eq_of_perm_of_sorted (r := fun a b : CppString => a ≤ b)
  · refine (List.perm_ext_iff_of_nodup hs.nodup ?_).2 ?_
    · exact (List.perm_insertionSort _ _).nodup_iff.2 (List.nodup_dedup _)
    · intro k
      rw [hm k, expenseMonths, (List.perm_insertionSort _ _).mem_iff, List.mem_dedup,
        List.mem_map]
      constructor
      · rintro ⟨t, ht, h1, h2⟩
        exact ⟨t, List.mem_filter.2 ⟨ht, by simp [h1]⟩, h2⟩
      · rintro ⟨t, ht, h2⟩
        have := List.mem_filter.1 ht
        exact ⟨t, this.1, by simpa using this.2, h2⟩
  · exact hs.imp (fun {a b} h => le_of_lt h)
  · exact List.sorted_insertionSort _ _

theorem toSizeT_of_nonneg (x : Int) (h0 : 0 ≤ x) (h1 : x < 2 ^ 31) : toSizeT x = x.toNat := by
  unfold toSizeT
  rw [Int.emod_eq_of_lt h0 (by omega)]

theorem sum_snd_tabulate (keys : List CppString) (g : CppString → ℚ) :
    (tabulate keys g).map Prod.snd = keys.map g := by
  simp [tabulate, List.map_map, Function.comp_def]

/-- C9 (amended): with amounts taken as exact numbers, for a window
`months ≥ 1` (an `int`, so below `2^31`), `getMonthlyAverage` returns 0 when no
expense is stored and otherwise the sum of the expense totals of the `n`
largest year-month keys (first 7 characters of the date) divided by `n`, where
`n = min(months, number of year-months with expenses)`. -/
theorem getMonthlyAverage_spec (s : PersonalFinanceManager) (months : Int)
    (h1 : 1 ≤ months) (h2 : months < 2 ^ 31) :
    getMonthlyAverage s months = specMonthlyAverage s.transactions months.toNat ∧
    (s.transactions.filter (fun t => !t.isIncome) = [] → getMonthlyAverage s months = 0) ∧
    (s.transactions.filter (fun t => !t.isIncome) ≠ [] →
      1 ≤ min months.toNat (expenseMonths s.transactions).length ∧
      getMonthlyAverage s months
        = (((expenseMonths s.transactions).drop
              ((expenseMonths s.transactions).length
                - min months.toNat (expenseMonths s.transactions).length)).map
            (monthTotal s.transactions)).sum
          / ((min months.toNat (expenseMonths s.transactions).length : Nat) : ℚ)) := by
  obtain ⟨keys, hs, hm, hmt⟩ := monthlyTotalsOf_eq s.transactions
  have hkeys := sorted_lt_eq_expenseMonths s.transactions keys hs hm
  subst hkeys
  have hnil : s.transactions.filter (fun t => !t.isIncome) = [] →
      getMonthlyAverage s months = 0 := by
    intro hno
    have hkeys : expenseMonths s.transactions = [] := by simp [expenseMonths, hno]
    have hme : (monthlyTotalsOf s.transactions).isEmpty = true := by
      rw [hmt, hkeys]; rfl
    by_cases ha : s.transactions.isEmpty = true
    · simp [getMonthlyAverage, monthlyAverageParts, ha]
    · simp [getMonthlyAverage, monthlyAverageParts, ha, hme]
  have hcons : s.transactions.filter (fun t => !t.isIncome) ≠ [] →
      1 ≤ min months.toNat (expenseMonths s.transactions).length ∧
      getMonthlyAverage s months
        = (((expenseMonths s.transactions).drop
              ((expenseMonths s.transactions).length
                - min months.toNat (expenseMonths s.transactions).length)).map
            (monthTotal s.transactions)).sum
          / ((min months.toNat (expenseMonths s.transactions).length : Nat) : ℚ) := by
    intro hne
    obtain ⟨t, ht⟩ := List.exists_mem_of_ne_nil _ hne
    have ht' := List.mem_filter.1 ht
    have hkne : t.date.take 7 ∈ expenseMonths s.transactions :=
      (hm _).2 ⟨t, ht'.1, by simpa using ht'.2, rfl⟩
    have hlen : 1 ≤ (expenseMonths s.transactions).length :=
      List.length_pos_of_mem hkne
    have htne : s.transactions.isEmpty = false := by
      cases hts : s.transactions with
      | nil => rw [hts] at ht'; cases ht'.1
      | cons _ _ => rfl
    have hmne : (monthlyTotalsOf s.transactions).isEmpty = false := by
      rw [hmt]
      cases hks : expenseMonths s.transactions with
      | nil => rw [hks] at hlen; simp at hlen
      | cons _ _ => rfl
    have hmlen : (monthlyTotalsOf s.transactions).length
        = (expenseMonths s.transactions).length := by
      rw [hmt]; simp [tabulate]
    refine ⟨by omega, ?_⟩
    set m := (expenseMonths s.transactions).length with hmdef
    have hmin : min months (m : Int) = ((min months.toNat m : Nat) : Int) := by omega
    have hsize : toSizeT (min months (m : Int)) = min months.toNat m := by
      rw [toSizeT_of_nonneg _ (by omega) (by omega)]
      omega
    have htoNat : (min months (m : Int)).toNat = min months.toNat m := by
      omega
    unfold getMonthlyAverage monthlyAverageParts
    simp only [htne, hmne, Bool.false_eq_true, if_false, hmlen, hsize, htoNat]
    rw [hmin]
    simp only [Int.cast_natCast]
    congr 1
    rw [foldl_add_snd, foldl_add_snd, zero_add, zero_add]
    by_cases hlt : min months.toNat m < m
    · rw [if_pos hlt, hmt, List.map_take, List.map_reverse, sum_snd_tabulate,
        ← List.map_reverse, ← List.map_take, List.take_reverse, List.map_reverse,
        List.sum_reverse]
    · rw [if_neg hlt, hmt, sum_snd_tabulate]
      have : m - min months.toNat m = 0 := by omega
      rw [this, List.drop_zero]
  refine ⟨?_, hnil, hcons⟩
  by_cases hno : s.transactions.filter (fun t => !t.isIncome) = []
  · rw [hnil hno, specMonthlyAverage, if_pos hno]
  · rw [(hcons hno).2, specMonthlyAverage, if_neg hno]

/-- Witness for C9 (amended): `monthlyState` has expenses of 20, 50 and 20 in three
successive months; over a window of 2 the average is (50 + 20) / 2 = 35. -/
theorem getMonthlyAverage_spec_witness :
    (1 : Int) ≤ 2 ∧ (2 : Int) < 2 ^ 31 ∧
    getMonthlyAverage monthlyState 2 = specMonthlyAverage monthlyState.transactions 2 ∧
    getMonthlyAverage monthlyState 2 = 35 :=
  ⟨by decide, by decide, (getMonthlyAverage_spec monthlyState 2 (by decide) (by decide)).1,
   by decide!⟩

theorem UMap.mem_iff_find {κ ν : Type} [DecidableEq κ] (m : UMap κ ν)
    (h : (m.map Prod.fst).Nodup) (k : κ) (v : ν) : (k, v) ∈ m ↔ UMap.find m k = some v := by
  induction m with
  | nil => simp [UMap.find]
  | cons e m ih =>
    obtain ⟨k₀, w⟩ := e
    simp only [List.map_cons, List.nodup_cons] at h
    by_cases h0 : k₀ = k
    · subst h0
      have : (k₀, v) ∉ m := fun hm => h.1 (List.mem_map_of_mem Prod.fst hm)
      simp only [List.mem_cons, Prod.mk.injEq, true_and, this, or_false, UMap.find, if_true,
        Option.some.injEq]
      exact eq_comm
    · simp only [List.mem_cons, Prod.mk.injEq, UMap.find, h0, if_false, ih h.2]
      constructor
      · rintro (⟨h1, -⟩ | h1)
        · exact absurd h1.symm h0
        · exact h1
      · exact Or.inr

theorem reportDuplicates_fst (patterns : UMap CppString Int) (acc : List Finding × Bool) :
    (reportDuplicates patterns acc).1
      = acc.1 ++ (patterns.filter (fun p => decide (p.2 > 1))).map
          (fun p => Finding.duplicate p.1 p.2) := by
  unfold reportDuplicates
  induction patterns generalizing acc with
  | nil => simp
  | cons p ps ih =>
    rw [List.foldl_cons, ih]
    by_cases hp : p.2 > 1
    · simp [List.filter, hp]
    · simp [List.filter, hp]

theorem keyCount_snoc (fmt : ℚ → CppString) (pre : List Transaction) (t : Transaction)
    (key : CppString) :
    keyCount fmt (pre ++ [t]) key
      = keyCount fmt pre key + (if patternKey fmt t = key then 1 else 0) := by
  unfold keyCount
  rw [List.filter_append, List.length_append]
  by_cases h : patternKey fmt t = key <;> simp [List.filter, h]

theorem countPatterns_spec (fmt : ℚ → CppString) (ts : List Transaction) :
    ((countPatterns fmt ts).map Prod.fst).Nodup ∧
    ∀ key, UMap.find (countPatterns fmt ts) key
      = if keyCount fmt ts key = 0 then none else some (keyCount fmt ts key : Int) := by
  have key : ∀ (l pre : List Transaction) (m : UMap CppString Int),
      (m.map Prod.fst).Nodup →
      (∀ k, UMap.find m k
        = if keyCount fmt pre k = 0 then none else some (keyCount fmt pre k : Int)) →
      ((l.foldl (fun m t => UMap.modify m (patternKey fmt t) (fun v => v + 1)) m).map
          Prod.fst).Nodup ∧
      ∀ k, UMap.find (l.foldl (fun m t => UMap.modify m (patternKey fmt t) (fun v => v + 1)) m) k
        = if keyCount fmt (pre ++ l) k = 0 then none
          else some (keyCount fmt (pre ++ l) k : Int) := by
    intro l
    induction l with
    | nil =>
      intro pre m hnd hf
      exact ⟨hnd, by simpa using hf⟩
    | cons t l ih =>
      intro pre m hnd hf
      have happ : pre ++ t :: l = (pre ++ [t]) ++ l := by simp
      rw [List.foldl_cons, happ]
      apply ih (pre ++ [t]) _ (UMap.nodup_keys_modify hnd _ _)
      intro k
      rw [UMap.find_modify, keyCount_snoc]
      have hget : UMap.get m (patternKey fmt t) = (keyCount fmt pre (patternKey fmt t) : Int) := by
        rw [UMap.get, hf]
        split <;> simp [*]
      by_cases hk : k = patternKey fmt t
      · subst hk
        simp [hget]
      · rw [if_neg hk, if_neg (Ne.symm hk), hf k]
        simp
  have := key ts [] [] (by simp) (by simp [UMap.find, keyCount])
  simpa [countPatterns] using this

/-- What the duplicate pass does on every state: its findings are all Duplicate
findings, no two are equal, and a finding with key `key` and count `n` is
reported exactly when `n` stored transactions have the pattern key `key` and
`n > 1`. The grouping is by the rendered key, not by the tuple. -/
theorem duplicatePass_groups_by_key (fmt : ℚ → CppString) (s : PersonalFinanceManager) :
    (duplicatePass fmt s).Nodup ∧
    (∀ f ∈ duplicatePass fmt s, ∃ key n, f = Finding.duplicate key n) ∧
    ∀ key n, Finding.duplicate key n ∈ duplicatePass fmt s
      ↔ n = (keyCount fmt s.transactions key : Int) ∧ 1 < n := by
  obtain ⟨hnd, hf⟩ := countPatterns_spec fmt s.transactions
  have heq : duplicatePass fmt s
      = ((countPatterns fmt s.transactions).filter (fun p => decide (p.2 > 1))).map
          (fun p => Finding.duplicate p.1 p.2) := by
    rw [duplicatePass, reportDuplicates_fst]; simp
  refine ⟨?_, ?_, ?_⟩
  · rw [heq]
    apply List.Nodup.map
    · intro p q hpq
      simp only [Finding.duplicate.injEq] at hpq
      exact Prod.ext hpq.1 hpq.2
    · exact List.Nodup.filter _ (List.Nodup.of_map _ hnd)
  · intro f hfm
    rw [heq, List.mem_map] at hfm
    obtain ⟨p, -, rfl⟩ := hfm
    exact ⟨_, _, rfl⟩
  · intro key n
    rw [heq, List.mem_map]
    constructor
    · rintro ⟨p, hp, hpe⟩
      simp only [Finding.duplicate.injEq] at hpe
      obtain ⟨hp1, hp2⟩ := List.mem_filter.1 hp
      have hfind := (UMap.mem_iff_find _ hnd p.1 p.2).1 hp1
      rw [hf] at hfind
      split at hfind
      · cases hfind
      · simp only [Option.some.injEq] at hfind
        rw [← hpe.1, ← hpe.2]
        exact ⟨hfind.symm, by simpa using hp2⟩
    · rintro ⟨hn, h1⟩
      refine ⟨(key, n), List.mem_filter.2 ⟨?_, by simpa using h1⟩, rfl⟩
      rw [UMap.mem_iff_find _ hnd, hf, hn]
      have : keyCount fmt s.transactions key ≠ 0 := by
        intro h0
        rw [hn, h0] at h1
        simp at h1
      rw [if_neg this]

/-! ## Fraud heuristics: the duplicate pass -/

theorem collidingState_transactions :
    collidingState.transactions
      = [⟨1, 10, "Fuel".toList, "diesel".toList, "2024|01".toList, false⟩,
         ⟨2, 10, "Fuel|2024".toList, "petrol".toList, "01".toList, false⟩] := by
  decide!

theorem threeFuelState_transactions :
    threeFuelState.transactions
      = [⟨1, 10, "Fuel".toList, "diesel".toList, "2024-01-05".toList, false⟩,
         ⟨2, 10, "Fuel".toList, "petrol".toList, "2024-01-05".toList, false⟩,
         ⟨3, 10, "Fuel".toList, "gas".toList, "2024-01-05".toList, false⟩] := by
  decide!

/-- C10, the code at the failing input: in `collidingState` the two stored
expenses differ in category and in date and each `(amount, category, date)`
tuple has one member, yet for every rendering of amounts the duplicate pass
counts both under the key `<amount>|Fuel|2024|01` and reports it with count 2. -/
theorem duplicatePass_separator_collision (fmt : ℚ → CppString) :
    Reachable collidingState ∧
    tupleCount collidingState.transactions 10 "Fuel".toList "2024|01".toList = 1 ∧
    tupleCount collidingState.transactions 10 "Fuel|2024".toList "01".toList = 1 ∧
    duplicatePass fmt collidingState
      = [Finding.duplicate (fmt 10 ++ "|Fuel|2024|01".toList) 2] ∧
    detectFraud fmt collidingState
      = [Finding.duplicate (fmt 10 ++ "|Fuel|2024|01".toList) 2] := by
  have hk1 : patternKey fmt ⟨1, 10, "Fuel".toList, "diesel".toList, "2024|01".toList, false⟩
      = fmt 10 ++ "|Fuel|2024|01".toList := by
    simp [patternKey]
  have hk2 : patternKey fmt ⟨2, 10, "Fuel|2024".toList, "petrol".toList, "01".toList, false⟩
      = fmt 10 ++ "|Fuel|2024|01".toList := by
    simp [patternKey]
  have hcount : countPatterns fmt collidingState.transactions
      = [(fmt 10 ++ "|Fuel|2024|01".toList, 2)] := by
    rw [collidingState_transactions]
    simp only [countPatterns, List.foldl_cons, List.foldl_nil, hk1, hk2, UMap.modify, if_true]
    norm_num
  have hlarge : reportLarge collidingState.transactions
      ([Finding.duplicate (fmt 10 ++ "|Fuel|2024|01".toList) 2], true)
      = ([Finding.duplicate (fmt 10 ++ "|Fuel|2024|01".toList) 2], true) := by
    rw [collidingState_transactions]
    simp [reportLarge, List.insertionSort, List.orderedInsert]
  have hdup : reportDuplicates [(fmt 10 ++ "|Fuel|2024|01".toList, (2 : Int))] ([], false)
      = ([Finding.duplicate (fmt 10 ++ "|Fuel|2024|01".toList) 2], true) := by
    simp [reportDuplicates]
  refine ⟨addAll_reachable Reachable.new _, by decide!, by decide!, ?_, ?_⟩
  · rw [duplicatePass, hcount, hdup]
  · simp only [detectFraud, hcount, hdup, hlarge]
    simp

/-- The scenario of C10: three expenses of amount 10 in `Fuel` on one date
give one Duplicate finding with count 3, and nothing else. -/
theorem duplicatePass_threeFuel (fmt : ℚ → CppString) :
    duplicatePass fmt threeFuelState
      = [Finding.duplicate (fmt 10 ++ "|Fuel|2024-01-05".toList) 3] ∧
    detectFraud fmt threeFuelState
      = [Finding.duplicate (fmt 10 ++ "|Fuel|2024-01-05".toList) 3] := by
  have hk : ∀ (i : Int) (d : CppString),
      patternKey fmt ⟨i, 10, "Fuel".toList, d, "2024-01-05".toList, false⟩
        = fmt 10 ++ "|Fuel|2024-01-05".toList := by
    intro i d
    simp [patternKey]
  have hcount : countPatterns fmt threeFuelState.transactions
      = [(fmt 10 ++ "|Fuel|2024-01-05".toList, 3)] := by
    rw [threeFuelState_transactions]
    simp only [countPatterns, List.foldl_cons, List.foldl_nil, hk, UMap.modify, if_true]
    norm_num
  have hdup : reportDuplicates [(fmt 10 ++ "|Fuel|2024-01-05".toList, (3 : Int))] ([], false)
      = ([Finding.duplicate (fmt 10 ++ "|Fuel|2024-01-05".toList) 3], true) := by
    simp [reportDuplicates]
  have hlarge : reportLarge threeFuelState.transactions
      ([Finding.duplicate (fmt 10 ++ "|Fuel|2024-01-05".toList) 3], true)
      = ([Finding.duplicate (fmt 10 ++ "|Fuel|2024-01-05".toList) 3], true) := by
    rw [threeFuelState_transactions]
    simp [reportLarge, List.insertionSort, List.orderedInsert]
  refine ⟨?_, ?_⟩
  · rw [duplicatePass, hcount, hdup]
  · simp only [detectFraud, hcount, hdup, hlarge]
    simp

/-! ## Fraud heuristics: the outlier pass and the verdict -/

theorem foldl_expenses_eq (ts : List Transaction) :
    ts.foldl (fun v t => if !t.isIncome then v ++ [t.amount] else v) [] = expenseAmounts ts := by
  have key : ∀ (l : List Transaction) (v : List ℚ),
      l.foldl (fun v t => if !t.isIncome then v ++ [t.amount] else v) v
        = v ++ expenseAmounts l := by
    intro l
    induction l with
    | nil => intro v; simp [expenseAmounts]
    | cons t l ih =>
      intro v
      rw [List.foldl_cons, ih]
      cases ht : t.isIncome <;> simp [expenseAmounts, List.filter, ht]
  simpa using key ts []

theorem foldl_large_eq (ts : List Transaction) (threshold : ℚ) (acc : List Finding × Bool) :
    ts.foldl
        (fun r t =>
          if !t.isIncome && decide (t.amount > threshold) then
            (r.1 ++ [Finding.large t.amount t.category t.date], true)
          else r)
        acc
      = (acc.1 ++ (ts.filter (fun t => !t.isIncome && decide (t.amount > threshold))).map
            (fun t => Finding.large t.amount t.category t.date),
         acc.2 || !((ts.filter (fun t => !t.isIncome && decide (t.amount > threshold))).map
            (fun t => Finding.large t.amount t.category t.date)).isEmpty) := by
  induction ts generalizing acc with
  | nil => simp
  | cons t l ih =>
    rw [List.foldl_cons, ih]
    by_cases h : (!t.isIncome && decide (t.amount > threshold)) = true
    · simp [List.filter, h]
    · simp [List.filter, h]

/-- The outlier pass on an accumulator: with `sorted` any ascending
arrangement of the expense amounts, it appends the specified findings for the
median `sorted[n / 2]` and raises the flag when there is one. -/
theorem reportLarge_eq (ts : List Transaction) (acc : List Finding × Bool) (sorted : List ℚ)
    (hs : sorted.Sorted (fun a b => a ≤ b)) (hp : sorted.Perm (expenseAmounts ts))
    (hne : expenseAmounts ts ≠ []) :
    reportLarge ts acc
      = (acc.1 ++ specLargeFindings ts (sorted.getD (sorted.length / 2) 0),
         acc.2 || !(specLargeFindings ts (sorted.getD (sorted.length / 2) 0)).isEmpty) := by
  have hsort : (expenseAmounts ts).insertionSort (fun a b => a ≤ b) = sorted :=
    List.eq_of_perm_of_sorted ((List.perm_insertionSort _ _).trans hp.symm)
      (List.sorted_insertionSort _ _) hs
  have hts : ts.isEmpty = false := by
    cases ts with
    | nil => exact absurd rfl hne
    | cons _ _ => rfl
  have hex : (expenseAmounts ts).isEmpty = false := by
    cases h : expenseAmounts ts with
    | nil => exact absurd h hne
    | cons _ _ => rfl
  unfold reportLarge
  simp only [foldl_expenses_eq, hts, hex, hsort, Bool.not_false, if_true]
  rw [foldl_large_eq]
  have hthr : ∀ t : Transaction,
      (!t.isIncome && decide (t.amount > sorted.getD (sorted.length / 2) 0 * 3))
        = (!t.isIncome && decide (t.amount > 3 * sorted.getD (sorted.length / 2) 0)) := by
    intro t
    rw [mul_comm]
  simp only [specLargeFindings, hthr]

theorem reportLarge_of_no_expense (ts : List Transaction) (acc : List Finding × Bool)
    (h : expenseAmounts ts = []) : reportLarge ts acc = acc := by
  unfold reportLarge
  simp only [foldl_expenses_eq, h]
  cases ts.isEmpty <;> simp

/-- C11 (amended): with amounts taken as exact numbers, with at least one
stored expense, and `sorted` the expense amounts in ascending order, the
outlier pass reports exactly one `Large` finding for each stored expense whose
amount exceeds three times `sorted[n / 2]`, in storage order; without stored
expense it reports nothing. -/
theorem largePass_spec (s : PersonalFinanceManager) :
    (expenseAmounts s.transactions = [] → largePass s = []) ∧
    (∀ sorted : List ℚ, sorted.Sorted (fun a b => a ≤ b) →
      sorted.Perm (expenseAmounts s.transactions) → 1 ≤ (expenseAmounts s.transactions).length →
      largePass s
        = specLargeFindings s.transactions
            (sorted.getD ((expenseAmounts s.transactions).length / 2) 0) ∧
      ∀ t ∈ s.transactions,
        (Finding.large t.amount t.category t.date ∈ largePass s ↔
          ∃ u ∈ s.transactions, u.isIncome = false ∧
            u.amount > 3 * sorted.getD ((expenseAmounts s.transactions).length / 2) 0 ∧
            u.amount = t.amount ∧ u.category = t.category ∧ u.date = t.date)) := by
  refine ⟨?_, ?_⟩
  · intro h
    rw [largePass, reportLarge_of_no_expense _ _ h]
  · intro sorted hs hp hlen
    have hne : expenseAmounts s.transactions ≠ [] := by
      intro h
      rw [h] at hlen
      simp at hlen
    have heq : largePass s
        = specLargeFindings s.transactions
            (sorted.getD ((expenseAmounts s.transactions).length / 2) 0) := by
      rw [largePass, reportLarge_eq _ _ sorted hs hp hne, hp.length_eq]
      simp
    refine ⟨heq, ?_⟩
    intro t _
    rw [heq, specLargeFindings, List.mem_map]
    constructor
    · rintro ⟨u, hu, hue⟩
      obtain ⟨hu1, hu2⟩ := List.mem_filter.1 hu
      simp only [Bool.and_eq_true, Bool.not_eq_true', decide_eq_true_eq] at hu2
      simp only [Finding.large.injEq] at hue
      exact ⟨u, hu1, hu2.1, hu2.2, hue.1, hue.2.1, hue.2.2⟩
    · rintro ⟨u, hu1, hu2, hu3, h1, h2, h3⟩
      refine ⟨u, List.mem_filter.2 ⟨hu1, ?_⟩, by rw [h1, h2, h3]⟩
      simp only [Bool.and_eq_true, Bool.not_eq_true', decide_eq_true_eq]
      exact ⟨hu2, hu3⟩

/-- Witness for C11 (amended): `outlierState` stores expenses 10, 100, 10, 10, 10; the
sorted amounts are 10, 10, 10, 10, 100, the median is 10 and the only `Large`
finding is the expense of 100. -/
theorem largePass_spec_witness :
    List.Sorted (fun a b : ℚ => a ≤ b) [10, 10, 10, 10, 100] ∧
    List.Perm [10, 10, 10, 10, 100] (expenseAmounts outlierState.transactions) ∧
    1 ≤ (expenseAmounts outlierState.transactions).length ∧
    largePass outlierState
      = specLargeFindings outlierState.transactions
          (List.getD [10, 10, 10, 10, 100]
            ((expenseAmounts outlierState.transactions).length / 2) 0) ∧
    largePass outlierState
      = [Finding.large 100 "Travel".toList "2024-01-03".toList] :=
  have hs : List.Sorted (fun a b : ℚ => a ≤ b) [10, 10, 10, 10, 100] := by decide
  have hp : List.Perm [10, 10, 10, 10, 100] (expenseAmounts outlierState.transactions) := by
    have : expenseAmounts outlierState.transactions = [10, 100, 10, 10, 10] := by decide!
    rw [this]
    decide
  have hl : 1 ≤ (expenseAmounts outlierState.transactions).length := by decide!
  ⟨hs, hp, hl, ((largePass_spec outlierState).2 _ hs hp hl).1, by decide!⟩

theorem reportDuplicates_snd (patterns : UMap CppString Int) (acc : List Finding × Bool) :
    (reportDuplicates patterns acc).2
      = (acc.2 || !((patterns.filter (fun p => decide (p.2 > 1))).map
          (fun p => Finding.duplicate p.1 p.2)).isEmpty) := by
  unfold reportDuplicates
  induction patterns generalizing acc with
  | nil => simp
  | cons p ps ih =>
    rw [List.foldl_cons, ih]
    by_cases hp : p.2 > 1
    · simp [List.filter, hp]
    · simp [List.filter, hp]

theorem reportDuplicates_flag (fmt : ℚ → CppString) (s : PersonalFinanceManager) :
    reportDuplicates (countPatterns fmt s.transactions) ([], false)
      = (duplicatePass fmt s, !(duplicatePass fmt s).isEmpty) := by
  apply Prod.ext
  · rfl
  · rw [reportDuplicates_snd, duplicatePass, reportDuplicates_fst]
    simp

/-- The outlier pass only appends to what the duplicate pass left. -/
theorem reportLarge_acc (s : PersonalFinanceManager) (acc : List Finding × Bool) :
    reportLarge s.transactions acc
      = (acc.1 ++ largePass s, acc.2 || !(largePass s).isEmpty) := by
  by_cases h : expenseAmounts s.transactions = []
  · rw [largePass, reportLarge_of_no_expense _ _ h, reportLarge_of_no_expense _ _ h]
    simp
  · have hs := List.sorted_insertionSort (fun a b : ℚ => a ≤ b) (expenseAmounts s.transactions)
    have hp := List.perm_insertionSort (fun a b : ℚ => a ≤ b) (expenseAmounts s.transactions)
    rw [largePass, reportLarge_eq _ _ _ hs hp h, reportLarge_eq _ _ _ hs hp h]
    simp

theorem largePass_eq_nil_of_no_expense (s : PersonalFinanceManager)
    (h : expenseAmounts s.transactions = []) : largePass s = [] := by
  rw [largePass, reportLarge_of_no_expense _ _ h]

theorem mem_largePass {s : PersonalFinanceManager} {f : Finding} (h : f ∈ largePass s) :
    ∃ a c d, f = Finding.large a c d := by
  by_cases hno : expenseAmounts s.transactions = []
  · rw [largePass, reportLarge_of_no_expense _ _ hno] at h
    cases h
  · have hs := List.sorted_insertionSort (fun a b : ℚ => a ≤ b) (expenseAmounts s.transactions)
    have hp := List.perm_insertionSort (fun a b : ℚ => a ≤ b) (expenseAmounts s.transactions)
    rw [largePass, reportLarge_eq _ _ _ hs hp hno] at h
    simp only [List.nil_append, specLargeFindings, List.mem_map] at h
    obtain ⟨t, -, rfl⟩ := h
    exact ⟨_, _, _, rfl⟩

theorem detectFraud_eq (fmt : ℚ → CppString) (s : PersonalFinanceManager) :
    detectFraud fmt s
      = if (duplicatePass fmt s ++ largePass s).isEmpty then [Finding.safe]
        else duplicatePass fmt s ++ largePass s := by
  unfold detectFraud
  simp only [reportDuplicates_flag, reportLarge_acc]
  cases hd : duplicatePass fmt s <;> cases hl : largePass s <;> simp

theorem scenarioUndone_transactions :
    scenarioUndone.transactions
      = [⟨1, 1000, "Salary".toList, "pay".toList, "2024-01-01".toList, true⟩] := by
  decide!

/-- The answer of `detectFraud` in terms of its two passes: the single `Safe`
entry exactly when the duplicate pass and the outlier pass both report
nothing, otherwise the findings of the two passes and nothing else. In the
scenario state after the undo (only the income of 1000 is stored) the answer
is `Safe`. -/
theorem detectFraud_safe_iff (fmt : ℚ → CppString) (s : PersonalFinanceManager) :
    (detectFraud fmt s = [Finding.safe] ↔ duplicatePass fmt s = [] ∧ largePass s = []) ∧
    (¬ (duplicatePass fmt s = [] ∧ largePass s = []) →
      detectFraud fmt s = duplicatePass fmt s ++ largePass s ∧
      Finding.safe ∉ detectFraud fmt s) ∧
    detectFraud fmt scenarioUndone = [Finding.safe] := by
  have hnosafe : Finding.safe ∉ duplicatePass fmt s ++ largePass s := by
    intro hmem
    rcases List.mem_append.1 hmem with h | h
    · obtain ⟨key, n, hk⟩ := (duplicatePass_groups_by_key fmt s).2.1 _ h
      cases hk
    · obtain ⟨a, c, d, hk⟩ := mem_largePass h
      cases hk
  have hother : ¬ (duplicatePass fmt s = [] ∧ largePass s = []) →
      detectFraud fmt s = duplicatePass fmt s ++ largePass s := by
    intro hne
    rw [detectFraud_eq, if_neg]
    intro hemp
    apply hne
    simpa [List.isEmpty_iff] using hemp
  refine ⟨⟨?_, ?_⟩, ?_, ?_⟩
  · intro hsafe
    by_contra hne
    rw [hother hne] at hsafe
    apply hnosafe
    rw [hsafe]
    simp
  · rintro ⟨hd, hl⟩
    rw [detectFraud_eq, hd, hl]
    simp
  · intro hne
    refine ⟨hother hne, ?_⟩
    rw [hother hne]
    exact hnosafe
  · have hd : duplicatePass fmt scenarioUndone = [] := by
      rw [duplicatePass, scenarioUndone_transactions]
      simp [countPatterns, UMap.modify, reportDuplicates]
    have hl : largePass scenarioUndone = [] := by
      apply (largePass_eq_nil_of_no_expense scenarioUndone)
      rw [scenarioUndone_transactions]
      simp [expenseAmounts]
    rw [detectFraud_eq, hd, hl]
    simp

/-- In the scenario state before the undo (income 1000 and expense 200) both
passes are empty for the rendering `exactRender`, so the answer is `Safe`. -/
theorem detectFraud_safe_iff_witness :
    (duplicatePass exactRender scenarioState = [] ∧ largePass scenarioState = []) ∧
    detectFraud exactRender scenarioState = [Finding.safe] :=
  have h : duplicatePass exactRender scenarioState = [] ∧ largePass scenarioState = [] := by
    constructor <;> decide!
  ⟨h, (detectFraud_safe_iff exactRender scenarioState).1.2 h⟩

/-! ## Category suggestions -/

theorem take_length_eq_iff (c p : CppString) : c.take p.length = p ↔ ∃ rest, c = p ++ rest := by
  constructor
  · intro h
    refine ⟨c.drop p.length, ?_⟩
    conv_lhs => rw [← List.take_append_drop p.length c]
    rw [h]
  · rintro ⟨rest, rfl⟩
    simp

theorem suggestions_fold (pfx : CppString) (l pre : List Transaction) (u : List CppString)
    (hs : u.Sorted (fun a b => a < b))
    (hm : ∀ c, c ∈ u ↔ (∃ t ∈ pre, t.category = c) ∧ ∃ rest, c = pfx ++ rest) :
    (l.foldl
        (fun uniqueCategories t =>
          if t.category.take pfx.length = pfx then setInsert t.category uniqueCategories
          else uniqueCategories) u).Sorted (fun a b => a < b) ∧
    ∀ c, c ∈ l.foldl
        (fun uniqueCategories t =>
          if t.category.take pfx.length = pfx then setInsert t.category uniqueCategories
          else uniqueCategories) u
      ↔ (∃ t ∈ pre ++ l, t.category = c) ∧ ∃ rest, c = pfx ++ rest := by
  induction l generalizing pre u with
  | nil => simpa using ⟨hs, hm⟩
  | cons x l ih =>
    have happ : pre ++ x :: l = (pre ++ [x]) ++ l := by simp
    rw [List.foldl_cons, happ]
    by_cases hx : x.category.take pfx.length = pfx
    · rw [if_pos hx]
      apply ih (pre ++ [x]) _ (sorted_setInsert _ _ hs)
      intro c
      rw [mem_setInsert, hm c]
      constructor
      · rintro (h | ⟨⟨t, ht, htc⟩, hr⟩)
        · exact ⟨⟨x, by simp, h.symm⟩, by rw [h]; exact (take_length_eq_iff _ _).1 hx⟩
        · exact ⟨⟨t, List.mem_append_left _ ht, htc⟩, hr⟩
      · rintro ⟨⟨t, ht, htc⟩, hr⟩
        rcases List.mem_append.1 ht with ht | ht
        · exact Or.inr ⟨⟨t, ht, htc⟩, hr⟩
        · simp at ht; subst ht; exact Or.inl htc.symm
    · rw [if_neg hx]
      apply ih (pre ++ [x]) _ hs
      intro c
      rw [hm c]
      constructor
      · rintro ⟨⟨t, ht, htc⟩, hr⟩
        exact ⟨⟨t, List.mem_append_left _ ht, htc⟩, hr⟩
      · rintro ⟨⟨t, ht, htc⟩, hr⟩
        rcases List.mem_append.1 ht with ht | ht
        · exact ⟨⟨t, ht, htc⟩, hr⟩
        · simp at ht; subst ht
          exact absurd ((take_length_eq_iff _ _).2 (htc ▸ hr)) hx

/-- C13: `getCategorySuggestions p` is strictly increasing in lexicographic
order, hence without duplicates; it contains `c` exactly when `c` is the
category of a stored transaction and `c` starts with `p` (character by
character, so case-sensitive); for the empty `p` it lists every stored category. -/
theorem getCategorySuggestions_spec (s : PersonalFinanceManager) (pfx : CppString) :
    (getCategorySuggestions s pfx).Sorted (fun a b => a < b) ∧
    (getCategorySuggestions s pfx).Nodup ∧
    (∀ c, c ∈ getCategorySuggestions s pfx
      ↔ (∃ t ∈ s.transactions, t.category = c) ∧ ∃ rest, c = pfx ++ rest) ∧
    (∀ c, c ∈ getCategorySuggestions s [] ↔ ∃ t ∈ s.transactions, t.category = c) := by
  have key : ∀ p : CppString,
      (getCategorySuggestions s p).Sorted (fun a b => a < b) ∧
      ∀ c, c ∈ getCategorySuggestions s p
        ↔ (∃ t ∈ s.transactions, t.category = c) ∧ ∃ rest, c = p ++ rest := by
    intro p
    have := suggestions_fold p s.transactions [] [] (by simp) (by simp)
    simpa [getCategorySuggestions] using this
  refine ⟨(key pfx).1, (key pfx).1.nodup, (key pfx).2, ?_⟩
  intro c
  rw [(key []).2 c]
  simp

/-- Witness for C13: `suggestionState` stores `Fun`, `Food`, `Fuel`, `Food`;
for `Fu` the suggestions are `Fuel`, `Fun`, and `fu` matches nothing. -/
theorem getCategorySuggestions_spec_witness :
    getCategorySuggestions suggestionState "Fu".toList = ["Fuel".toList, "Fun".toList] ∧
    getCategorySuggestions suggestionState "fu".toList = [] ∧
    getCategorySuggestions suggestionState []
      = ["Food".toList, "Fuel".toList, "Fun".toList] ∧
    (getCategorySuggestions suggestionState "Fu".toList).Nodup :=
  ⟨by decide!, by decide!, by decide!,
   (getCategorySuggestions_spec suggestionState "Fu".toList).2.1⟩

/-! ## Sequences of calls and identifiers -/

theorem run_append (s : PersonalFinanceManager) (ops ops' : List Op) :
    run s (ops ++ ops') = run (run s ops) ops' := by
  induction ops generalizing s with
  | nil => rfl
  | cons op ops ih => exact ih _

theorem undo_nextId (s : PersonalFinanceManager) : (undoLastTransaction s).1.nextId = s.nextId := by
  cases hu : s.undoStack with
  | nil => rw [undo_of_empty hu]
  | cons x rest => simp [undoLastTransaction, hu]

theorem run_nextId (s : PersonalFinanceManager) (ops : List Op) :
    (run s ops).nextId = s.nextId + countAdds ops := by
  induction ops generalizing s with
  | nil => simp [run, countAdds]
  | cons op ops ih =>
    cases op with
    | add a c d dt i =>
      rw [run, ih, step, add_nextId, countAdds]
      push_cast
      ring
    | undo =>
      rw [run, ih, step, undo_nextId, countAdds]

theorem reachable_step {s : PersonalFinanceManager} (h : Reachable s) (op : Op) :
    Reachable (step s op) := by
  cases op with
  | add a c d dt i => exact Reachable.add a c d dt i h
  | undo => exact Reachable.undo h

theorem reachable_run {s : PersonalFinanceManager} (h : Reachable s) (ops : List Op) :
    Reachable (run s ops) := by
  induction ops generalizing s with
  | nil => exact h
  | cons op ops ih => exact ih (reachable_step h op)

theorem reachable_exists_run {s : PersonalFinanceManager} (h : Reachable s) :
    ∃ ops, s = run PersonalFinanceManager.new ops := by
  induction h with
  | new => exact ⟨[], rfl⟩
  | add a c d dt i _ ih =>
    obtain ⟨ops, hops⟩ := ih
    refine ⟨ops ++ [Op.add a c d dt i], ?_⟩
    rw [run_append, ← hops]
    rfl
  | undo _ ih =>
    obtain ⟨ops, hops⟩ := ih
    refine ⟨ops ++ [Op.undo], ?_⟩
    rw [run_append, ← hops]
    rfl

/-- With an unbounded counter (exact arithmetic): in a reachable state the
stored ids increase strictly in storage order and are below `nextId`; `addTransaction` assigns `nextId` and increases
it, `undoLastTransaction` keeps it, so it never decreases; and when the state
results from the calls `ops`, `nextId` is one more than the number of
`addTransaction` calls among them, so the next append, the `k`-th ever made,
stores the id `k` whatever was undone before. -/
theorem ids_increasing_never_reused (s : PersonalFinanceManager) (h : Reachable s) :
    s.transactions.Pairwise (fun a b => a.id < b.id) ∧
    (∀ t ∈ s.transactions, t.id < s.nextId) ∧
    (∀ (a : ℚ) (c d dt : CppString) (i : Bool),
      (addTransaction s a c d dt i).1.transactions
        = s.transactions ++ [⟨s.nextId, a, c, d, dt, i⟩] ∧
      s.nextId < (addTransaction s a c d dt i).1.nextId) ∧
    (undoLastTransaction s).1.nextId = s.nextId ∧
    (∀ ops', s.nextId ≤ (run s ops').nextId) ∧
    (∃ ops, s = run PersonalFinanceManager.new ops) ∧
    (∀ ops, s = run PersonalFinanceManager.new ops →
      s.nextId = (countAdds ops : Int) + 1 ∧
      ∀ (a : ℚ) (c d dt : CppString) (i : Bool),
        (addTransaction s a c d dt i).1.transactions
          = s.transactions ++ [⟨(countAdds ops : Int) + 1, a, c, d, dt, i⟩]) := by
  have hinv := reachable_inv h
  have hcount : ∀ ops, s = run PersonalFinanceManager.new ops →
      s.nextId = (countAdds ops : Int) + 1 := by
    intro ops hops
    rw [hops, run_nextId]
    simp [PersonalFinanceManager.new]
    ring
  refine ⟨hinv.ids_sorted, hinv.ids_lt, ?_, undo_nextId s, ?_, reachable_exists_run h, ?_⟩
  · intro a c d dt i
    refine ⟨add_transactions s a c d dt i, ?_⟩
    rw [add_nextId]
    omega
  · intro ops'
    rw [run_nextId]
    omega
  · intro ops hops
    refine ⟨hcount ops hops, ?_⟩
    intro a c d dt i
    rw [add_transactions, hcount ops hops]

theorem scenarioUndone_reachable : Reachable scenarioUndone :=
  Reachable.undo scenarioState_reachable

/-- After two appends and one undo the next append stores id 3; the id 2 of
the undone transaction is not used again. -/
theorem ids_increasing_never_reused_witness :
    Reachable scenarioUndone ∧
    scenarioUndone.transactions.Pairwise (fun a b => a.id < b.id) ∧
    (addTransaction scenarioUndone 5 "Fun".toList "game".toList "2024-01-07".toList
        false).1.transactions
      = scenarioUndone.transactions
          ++ [⟨scenarioUndone.nextId, 5, "Fun".toList, "game".toList, "2024-01-07".toList,
              false⟩] ∧
    scenarioUndone.nextId = 3 :=
  ⟨scenarioUndone_reachable,
   (ids_increasing_never_reused scenarioUndone scenarioUndone_reachable).1,
   ((ids_increasing_never_reused scenarioUndone scenarioUndone_reachable).2.2.1 5
      "Fun".toList "game".toList "2024-01-07".toList false).1,
   by decide!⟩

/-! ## Balance history -/

/-- The method `undoLastTransaction` never writes to `dateIndex`,
`monthlyIndex`, `recentTransactions` or `nextId`. -/
theorem undo_keeps_indexes (s : PersonalFinanceManager) :
    (undoLastTransaction s).1.dateIndex = s.dateIndex ∧
    (undoLastTransaction s).1.monthlyIndex = s.monthlyIndex ∧
    (undoLastTransaction s).1.recentTransactions = s.recentTransactions := by
  cases hu : s.undoStack with
  | nil => rw [undo_of_empty hu]; exact ⟨rfl, rfl, rfl⟩
  | cons x rest => simp [undoLastTransaction, hu]

theorem add_recentTransactions (s : PersonalFinanceManager) (a : ℚ) (c d dt : CppString)
    (i : Bool) :
    (addTransaction s a c d dt i).1.recentTransactions
      = if (s.recentTransactions ++ [(⟨s.nextId, a, c, d, dt, i⟩ : Transaction)]).length
            > RECENT_LIMIT then
          (s.recentTransactions ++ [(⟨s.nextId, a, c, d, dt, i⟩ : Transaction)]).tail
        else s.recentTransactions ++ [(⟨s.nextId, a, c, d, dt, i⟩ : Transaction)] := rfl

/-- After appends only, the recency window is the last `min(10, n)` stored
transactions. -/
theorem addAll_recentTransactions
    (as : List (ℚ × CppString × CppString × CppString × Bool)) :
    (addAll PersonalFinanceManager.new as).recentTransactions
      = (addAll PersonalFinanceManager.new as).transactions.drop
          ((addAll PersonalFinanceManager.new as).transactions.length - 10) ∧
    (addAll PersonalFinanceManager.new as).recentTransactions.length
      = min 10 (addAll PersonalFinanceManager.new as).transactions.length := by
  have key : ∀ (l : List (ℚ × CppString × CppString × CppString × Bool))
      (s : PersonalFinanceManager),
      s.recentTransactions = s.transactions.drop (s.transactions.length - 10) →
      (addAll s l).recentTransactions
        = (addAll s l).transactions.drop ((addAll s l).transactions.length - 10) := by
    intro l
    induction l with
    | nil => intro s hs; exact hs
    | cons a l ih =>
      intro s hs
      apply ih
      rw [add_recentTransactions, add_transactions, hs, RECENT_LIMIT]
      simp only [List.length_append, List.length_drop, List.length_singleton]
      by_cases hn : s.transactions.length < 10
      · have h0 : s.transactions.length - 10 = 0 := by omega
        have h1 : s.transactions.length + 1 - 10 = 0 := by omega
        rw [h0, h1, if_neg (by omega)]
        simp
      · have hlen : s.transactions.length - (s.transactions.length - 10) + 1 > 10 := by omega
        rw [if_pos hlen]
        have h1 : s.transactions.length + 1 - 10 = (s.transactions.length - 10) + 1 := by omega
        rw [h1, List.drop_append_of_le_length (by omega), ← List.drop_one,
          List.drop_append_of_le_length (by rw [List.length_drop]; omega), List.drop_drop]
  have h := key as PersonalFinanceManager.new rfl
  refine ⟨h, ?_⟩
  rw [h, List.length_drop]
  omega

/-- C15, the code at the failing input: one append followed by one undo is a
reachable state with no stored transaction, yet the recency window still
holds the undone transaction, so it has 1 entry instead of `min(10, 0) = 0`. -/
theorem undo_leaves_recency_window :
    Reachable addUndoState ∧
    addUndoState.transactions = [] ∧
    addUndoState.recentTransactions
      = [⟨1, 200, "Food".toList, "lunch".toList, "2024-01-05".toList, false⟩] ∧
    addUndoState.recentTransactions.length ≠ min 10 addUndoState.transactions.length ∧
    addUndoState.recentTransactions
      ≠ addUndoState.transactions.drop (addUndoState.transactions.length - 10) := by
  refine ⟨Reachable.undo (Reachable.add _ _ _ _ _ Reachable.new), by decide!, by decide!,
    by decide!, by decide!⟩

/-- C16, the code at the failing input: one append followed by one undo is a
reachable state with no stored transaction, yet `dateIndex` and `monthlyIndex`
still hold the id 1 of the undone transaction. -/
theorem undo_leaves_index_entries :
    Reachable addUndoState ∧
    addUndoState.transactions = [] ∧
    addUndoState.dateIndex = [toLex ("2024-01-05".toList, 1)] ∧
    addUndoState.monthlyIndex = [("2024-01".toList, [1])] ∧
    (1 : Int) ∈ dateIndexIds addUndoState ∧
    (1 : Int) ∈ monthlyIndexIds addUndoState ∧
    ¬ ∃ t ∈ addUndoState.transactions, t.id = 1 := by
  refine ⟨Reachable.undo (Reachable.add _ _ _ _ _ Reachable.new), by decide!, by decide!,
    by decide!, by decide!, by decide!, by decide!⟩

theorem mem_ids_modify (m : SMap CppString (List Int)) (k : CppString) (x y : Int) :
    y ∈ ((SMap.modify [] m k (fun ids => ids ++ [x])).map Prod.snd).flatten
      ↔ y = x ∨ y ∈ (m.map Prod.snd).flatten := by
  induction m with
  | nil => simp [SMap.modify]
  | cons e m ih =>
    obtain ⟨k', v⟩ := e
    unfold SMap.modify
    split
    · simp
    · split
      · simp only [List.map_cons, List.flatten_cons, List.mem_append, List.mem_singleton]
        tauto
      · simp only [List.map_cons, List.flatten_cons, List.mem_append, ih]
        tauto

/-- After appends only, the ids in `dateIndex` and in `monthlyIndex` are
exactly the ids of the stored transactions. -/
theorem addAll_index_ids (as : List (ℚ × CppString × CppString × CppString × Bool)) (y : Int) :
    (y ∈ dateIndexIds (addAll PersonalFinanceManager.new as)
      ↔ ∃ t ∈ (addAll PersonalFinanceManager.new as).transactions, t.id = y) ∧
    (y ∈ monthlyIndexIds (addAll PersonalFinanceManager.new as)
      ↔ ∃ t ∈ (addAll PersonalFinanceManager.new as).transactions, t.id = y) := by
  have key : ∀ (l : List (ℚ × CppString × CppString × CppString × Bool))
      (s : PersonalFinanceManager),
      ((y ∈ dateIndexIds s ↔ ∃ t ∈ s.transactions, t.id = y) ∧
        (y ∈ monthlyIndexIds s ↔ ∃ t ∈ s.transactions, t.id = y)) →
      ((y ∈ dateIndexIds (addAll s l) ↔ ∃ t ∈ (addAll s l).transactions, t.id = y) ∧
        (y ∈ monthlyIndexIds (addAll s l) ↔ ∃ t ∈ (addAll s l).transactions, t.id = y)) := by
    intro l
    induction l with
    | nil => intro s hs; exact hs
    | cons a l ih =>
      intro s hs
      apply ih
      have hts : ∀ a' c d dt i,
          (∃ t ∈ (addTransaction s a' c d dt i).1.transactions, t.id = y)
            ↔ y = s.nextId ∨ ∃ t ∈ s.transactions, t.id = y := by
        intro a' c d dt i
        rw [add_transactions]
        constructor
        · rintro ⟨t, ht, hty⟩
          rcases List.mem_append.1 ht with ht | ht
          · exact Or.inr ⟨t, ht, hty⟩
          · simp at ht; subst ht; exact Or.inl hty.symm
        · rintro (h | ⟨t, ht, hty⟩)
          · exact ⟨_, List.mem_append_right _ (List.mem_singleton_self _), h.symm⟩
          · exact ⟨t, List.mem_append_left _ ht, hty⟩
      constructor
      · rw [hts, ← hs.1]
        simp only [dateIndexIds, addTransaction, List.mem_map, mem_setInsert]
        constructor
        · rintro ⟨e, he | he, hey⟩
          · left; rw [← hey, he]; rfl
          · exact Or.inr ⟨e, he, hey⟩
        · rintro (h | ⟨e, he, hey⟩)
          · exact ⟨_, Or.inl rfl, h.symm⟩
          · exact ⟨e, Or.inr he, hey⟩
      · rw [hts, ← hs.2]
        simp only [monthlyIndexIds, addTransaction]
        exact mem_ids_modify _ _ _ _
  exact key as PersonalFinanceManager.new
    (by simp [dateIndexIds, monthlyIndexIds, PersonalFinanceManager.new])

/-! ## Budget listing and ranking agree -/

theorem foldl_snoc_pairs (m : UMap CppString ℚ) :
    m.foldl (fun (v : List (Lex (ℚ × CppString))) cat => v ++ [toLex (cat.2, cat.1)]) []
      = m.map (fun cat => toLex (cat.2, cat.1)) := by
  have key : ∀ (l : UMap CppString ℚ) (v : List (Lex (ℚ × CppString))),
      l.foldl (fun (v : List (Lex (ℚ × CppString))) cat => v ++ [toLex (cat.2, cat.1)]) v
        = v ++ l.map (fun cat => toLex (cat.2, cat.1)) := by
    intro l
    induction l with
    | nil => intro v; simp
    | cons e l ih => intro v; rw [List.foldl_cons, ih]; simp
  simpa using key m []

/-- Sorting the reversed range ascending and reading it backwards is the
descending sort. -/
theorem reverse_sort_eq_sort_desc {α : Type} [LinearOrder α] (l : List α) :
    (l.insertionSort (fun a b => a ≤ b)).reverse = l.insertionSort (fun a b => a ≥ b) := by
  apply List.eq_of_perm_of_sorted (r := fun a b : α => a ≥ b)
  · exact (List.reverse_perm _).trans
      ((List.perm_insertionSort _ _).trans (List.perm_insertionSort _ _).symm)
  · rw [List.Sorted, List.pairwise_reverse]
    exact List.sorted_insertionSort (fun a b : α => a ≤ b) l
  · exact List.sorted_insertionSort _ _

theorem take_min_length {α : Type} (n : Nat) (l : List α) :
    l.take (min n l.length) = l.take n := by
  rcases Nat.le_total n l.length with h | h
  · rw [Nat.min_eq_left h]
  · rw [Nat.min_eq_right h, List.take_of_length_le (le_refl _), List.take_of_length_le h]

/-- C19: when total spending exceeds the budget, the categories listed by
`analyzeBudget` in its OVER branch are, entry by entry and in the same order,
the result of `getTopCategories 3`. -/
theorem analyzeBudget_over_eq_getTopCategories (s : PersonalFinanceManager) (budget : ℚ)
    (h : (s.categoryExpenses.map Prod.snd).sum > budget) :
    analyzeBudget s budget
      = BudgetReport.over budget (s.categoryExpenses.map Prod.snd).sum
          ((s.categoryExpenses.map Prod.snd).sum - budget) (getTopCategories s 3) := by
  have htot : s.categoryExpenses.foldl (fun acc cat => acc + cat.2) 0
      = (s.categoryExpenses.map Prod.snd).sum := by
    rw [foldl_add_snd]; simp
  unfold analyzeBudget
  simp only [htot, if_pos h, foldl_snoc_pairs, take_min_length]
  congr 1
  unfold getTopCategories
  rw [PriorityQueue.popLoop_eq_take_sort, categoryHeap_eq, reverse_sort_eq_sort_desc]
  rfl

/-- Witness for C19: in `rankingState` the totals are Fuel 50, Food 20, Fun 20
and sum to 90; against a budget of 60 the OVER branch lists Fuel, Fun, Food,
as `getTopCategories 3` does. -/
theorem analyzeBudget_over_eq_getTopCategories_witness :
    (rankingState.categoryExpenses.map Prod.snd).sum > 60 ∧
    analyzeBudget rankingState 60
      = BudgetReport.over 60 (rankingState.categoryExpenses.map Prod.snd).sum
          ((rankingState.categoryExpenses.map Prod.snd).sum - 60)
          (getTopCategories rankingState 3) ∧
    getTopCategories rankingState 3
      = [("Fuel".toList, 50), ("Fun".toList, 20), ("Food".toList, 20)] :=
  have h : (rankingState.categoryExpenses.map Prod.snd).sum > 60 := by decide!
  ⟨h, analyzeBudget_over_eq_getTopCategories rankingState 60 h, by decide!⟩

/-! ## The divisor of the monthly average -/

theorem addTransactionWith_exact (s : PersonalFinanceManager) (a : ℚ) (c d dt : CppString)
    (i : Bool) : addTransactionWith Arith.exact s a c d dt i = addTransaction s a c d dt i :=
  rfl

theorem undoLastTransactionWith_exact (s : PersonalFinanceManager) :
    undoLastTransactionWith Arith.exact s = undoLastTransaction s := rfl

theorem runWith_exact (s : PersonalFinanceManager) (ops : List Op) :
    runWith Arith.exact s ops = run s ops := by
  induction ops generalizing s with
  | nil => rfl
  | cons op ops ih =>
    cases op with
    | add a c d dt i => exact ih _
    | undo => exact ih _

theorem analyzeBudgetWith_exact (s : PersonalFinanceManager) (b : ℚ) :
    analyzeBudgetWith Arith.exact s b = analyzeBudget s b := rfl

theorem reportLargeWith_exact (ts : List Transaction) (acc : List Finding × Bool) :
    reportLargeWith Arith.exact ts acc = reportLarge ts acc := rfl

theorem largePassWith_exact (s : PersonalFinanceManager) :
    largePassWith Arith.exact s = largePass s := rfl

theorem detectFraudWith_exact (fmt : ℚ → CppString) (s : PersonalFinanceManager) :
    detectFraudWith Arith.exact fmt s = detectFraud fmt s := rfl

theorem monthlyAveragePartsWith_exact (s : PersonalFinanceManager) (months : Int) :
    monthlyAveragePartsWith Arith.exact s months = monthlyAverageParts s months := rfl

theorem getMonthlyAverageWith_exact (s : PersonalFinanceManager) (months : Int) :
    getMonthlyAverageWith Arith.exact s months = getMonthlyAverage s months := rfl

/-- The rounding agrees with the `double` values of the decimal literals
0.1, 0.2, 0.3 and with the sums the hardware gives for them. -/
theorem roundDouble_samples :
    dbl (1 / 10) = 3602879701896397 / 36028797018963968 ∧
    dbl (2 / 10) = 3602879701896397 / 18014398509481984 ∧
    dbl (3 / 10) = 5404319552844595 / 18014398509481984 ∧
    Arith.machine.add (dbl (1 / 10)) (dbl (2 / 10)) = 1351079888211149 / 4503599627370496 ∧
    Arith.machine.sub (Arith.machine.add (dbl (1 / 10)) (dbl (2 / 10))) (dbl (2 / 10))
      = 1801439850948199 / 18014398509481984 ∧
    Arith.machine.mul (dbl (1 / 10)) 3 = 1351079888211149 / 4503599627370496 ∧
    Arith.machine.add 10000000000000000 1 = 10000000000000000 := by
  refine ⟨by decide!, by decide!, by decide!, by decide!, by decide!, by decide!, by decide!⟩

/-! ## Behaviour under machine arithmetic -/

/-- With rounding, an append followed by an undo does not give back the
state: after an expense of 0.1 in `Food`, appending 0.2 in `Food` and undoing
leaves the total 0.10000000000000003 and the balance -0.10000000000000003. This
is why the amended C2 takes amounts as exact numbers. -/
theorem add_undo_rounds :
    tenthState.categoryExpenses = [("Food".toList, 3602879701896397 / 36028797018963968)] ∧
    tenthState.currentBalance = -(3602879701896397 / 36028797018963968) ∧
    (undoLastTransactionWith Arith.machine
      (addTransactionWith Arith.machine tenthState (dbl (2 / 10)) "Food".toList "bun".toList
        "2024-01-06".toList false).1).1.categoryExpenses
      = [("Food".toList, 1801439850948199 / 18014398509481984)] ∧
    (undoLastTransactionWith Arith.machine
      (addTransactionWith Arith.machine tenthState (dbl (2 / 10)) "Food".toList "bun".toList
        "2024-01-06".toList false).1).1.currentBalance
      = -(1801439850948199 / 18014398509481984) := by
  refine ⟨by decide!, by decide!, by decide!, by decide!⟩

/-- With rounding, three appends of 0.1, 0.2, 0.3 in `Food` followed by three
undos leave no transaction but the total 8.3e-17 for `Food` (the guard `<= 0`
is not taken) and the balance -8.3e-17. This is why the amended C3 takes
amounts as exact numbers. -/
theorem roundtrip_rounds :
    roundedRoundTripState.transactions = [] ∧
    roundedRoundTripState.categoryExpenses = [("Food".toList, 3 / 36028797018963968)] ∧
    roundedRoundTripState.currentBalance = -(3 / 36028797018963968) := by
  refine ⟨by decide!, by decide!, by decide!⟩

/-- Counterexample to C8 as stated: on the machine, with totals `1e16` for
`Rent` and 1 for `Food` and a budget of `1e16`, the sum of the totals exceeds
the budget, yet `analyzeBudget` adds them to `1e16` and reports UNDER with
headroom 0, in either iteration order of the two entries. -/
theorem analyzeBudget_rounds :
    absorbedState.categoryExpenses
      = [("Rent".toList, 10000000000000000), ("Food".toList, 1)] ∧
    (absorbedState.categoryExpenses.map Prod.snd).sum > 10000000000000000 ∧
    analyzeBudgetWith Arith.machine absorbedState 10000000000000000
      = BudgetReport.under 10000000000000000 10000000000000000 0 ∧
    analyzeBudgetWith Arith.machine
        { absorbedState with
          categoryExpenses := [("Food".toList, 1), ("Rent".toList, 10000000000000000)] }
        10000000000000000
      = BudgetReport.under 10000000000000000 10000000000000000 0 := by
  refine ⟨by decide!, by decide!, by decide!, by decide!⟩

/-- Counterexample to C9 as stated: on the machine, with expenses of `1e16`
and 1 in January 2024 and a window of 1, `getMonthlyAverage` returns `1e16`,
while the sum of the month's expenses divided by 1 is `1e16 + 1`. -/
theorem getMonthlyAverage_rounds :
    expenseMonths absorbedState.transactions = ["2024-01".toList] ∧
    monthTotal absorbedState.transactions "2024-01".toList = 10000000000000001 ∧
    specMonthlyAverage absorbedState.transactions 1 = 10000000000000001 ∧
    getMonthlyAverageWith Arith.machine absorbedState 1 = 10000000000000000 ∧
    getMonthlyAverageWith Arith.machine absorbedState 1
      ≠ specMonthlyAverage absorbedState.transactions 1 := by
  refine ⟨by decide!, by decide!, by decide!, by decide!, by decide!⟩

/-- Counterexample to C11 as stated: on the machine, with expenses 0.1, 0.1
and 0.30000000000000004, the median `sorted[1]` is 0.1 and the third amount
exceeds three times the median, yet the outlier pass reports nothing, because
the threshold `median * 3` is rounded to 0.30000000000000004. -/
theorem largePass_rounds :
    expenseAmounts thresholdState.transactions
      = [3602879701896397 / 36028797018963968, 3602879701896397 / 36028797018963968,
         1351079888211149 / 4503599627370496] ∧
    (expenseAmounts thresholdState.transactions).Sorted (fun a b => a ≤ b) ∧
    (expenseAmounts thresholdState.transactions).getD
        ((expenseAmounts thresholdState.transactions).length / 2) 0
      = 3602879701896397 / 36028797018963968 ∧
    (1351079888211149 / 4503599627370496 : ℚ) > 3 * (3602879701896397 / 36028797018963968) ∧
    specLargeFindings thresholdState.transactions (3602879701896397 / 36028797018963968)
      = [Finding.large (1351079888211149 / 4503599627370496) "Fun".toList
          "2024-01-07".toList] ∧
    Arith.machine.mul (3602879701896397 / 36028797018963968) 3
      = 1351079888211149 / 4503599627370496 ∧
    largePassWith Arith.machine thresholdState = [] := by
  refine ⟨by decide!, by decide!, by decide!, by decide!, by decide!, by decide!, by decide!⟩

/-! ## Identifiers on the machine -/

theorem wrapInt_of_range (x : Int) (h0 : -2 ^ 31 ≤ x) (h1 : x < 2 ^ 31) : wrapInt x = x := by
  unfold wrapInt
  have e31 : (2 : Int) ^ 31 = 2147483648 := by norm_num
  have e32 : (2 : Int) ^ 32 = 4294967296 := by norm_num
  rw [e31] at h0 h1 ⊢
  rw [e32]
  omega

theorem runWith_append (A : Arith) (s : PersonalFinanceManager) (ops ops' : List Op) :
    runWith A s (ops ++ ops') = runWith A (runWith A s ops) ops' := by
  induction ops generalizing s with
  | nil => rfl
  | cons op ops ih => exact ih _

theorem addWith_transactions (A : Arith) (s : PersonalFinanceManager) (a : ℚ)
    (c d dt : CppString) (i : Bool) :
    (addTransactionWith A s a c d dt i).1.transactions
      = s.transactions ++ [⟨s.nextId, a, c, d, dt, i⟩] := rfl

theorem addWith_nextId (A : Arith) (s : PersonalFinanceManager) (a : ℚ)
    (c d dt : CppString) (i : Bool) :
    (addTransactionWith A s a c d dt i).1.nextId = A.succ s.nextId := rfl

theorem undoWith_nextId (A : Arith) (s : PersonalFinanceManager) :
    (undoLastTransactionWith A s).1.nextId = s.nextId := by
  cases hu : s.undoStack with
  | nil => simp [undoLastTransactionWith, hu]
  | cons x rest => simp [undoLastTransactionWith, hu]

theorem undoWith_transactions_sublist (A : Arith) (s : PersonalFinanceManager) :
    (undoLastTransactionWith A s).1.transactions.Sublist s.transactions := by
  cases hu : s.undoStack with
  | nil => simp [undoLastTransactionWith, hu]
  | cons x rest =>
    simp only [undoLastTransactionWith, hu]
    exact List.eraseP_sublist _

theorem countAdds_incomeOps (n : Nat) : countAdds (incomeOps n) = n := by
  induction n with
  | zero => rfl
  | succ n ih =>
    rw [incomeOps, List.replicate_succ, countAdds]
    exact congrArg (fun k => k + 1) ih

theorem incomeOps_succ (n : Nat) :
    incomeOps (n + 1)
      = incomeOps n ++ [Op.add 1 "Salary".toList "pay".toList "2024-01-01".toList true] := by
  rw [incomeOps, incomeOps, List.replicate_succ']

/-- While the counter stays within `int`, a machine run keeps the ids
increasing and below `nextId`, and `nextId` counts the appends. -/
theorem runWith_machine_ids (ops : List Op) (s : PersonalFinanceManager) (k : Nat)
    (hk : s.nextId = (k : Int) + 1)
    (hp : s.transactions.Pairwise (fun a b => a.id < b.id))
    (hlt : ∀ t ∈ s.transactions, t.id < s.nextId)
    (hb : k + countAdds ops ≤ 2 ^ 31 - 2) :
    (runWith Arith.machine s ops).nextId = ((k + countAdds ops : Nat) : Int) + 1 ∧
    (runWith Arith.machine s ops).transactions.Pairwise (fun a b => a.id < b.id) ∧
    ∀ t ∈ (runWith Arith.machine s ops).transactions,
      t.id < (runWith Arith.machine s ops).nextId := by
  induction ops generalizing s k with
  | nil => exact ⟨by simpa [runWith, countAdds] using hk, hp, hlt⟩
  | cons op ops ih =>
    cases op with
    | add a c d dt i =>
      have hb' : k + 1 + countAdds ops ≤ 2 ^ 31 - 2 := by
        simp only [countAdds] at hb
        omega
      have hnext : (addTransactionWith Arith.machine s a c d dt i).1.nextId
          = ((k + 1 : Nat) : Int) + 1 := by
        rw [addWith_nextId, hk]
        show wrapInt ((k : Int) + 1 + 1) = _
        rw [wrapInt_of_range _ (by norm_num; omega) (by norm_num at hb' ⊢; omega)]
        push_cast
        ring
      have := ih (addTransactionWith Arith.machine s a c d dt i).1 (k + 1) hnext
        (by
          rw [addWith_transactions, List.pairwise_append]
          refine ⟨hp, by simp, ?_⟩
          intro x hx y hy
          simp at hy; subst hy
          exact hlt x hx)
        (by
          intro t ht
          rw [addWith_transactions, List.mem_append] at ht
          rw [hnext]
          rcases ht with ht | ht
          · have := hlt t ht
            rw [hk] at this
            push_cast
            omega
          · simp at ht; subst ht
            show s.nextId < _
            rw [hk]
            push_cast
            omega)
        hb'
      have hc : k + countAdds (Op.add a c d dt i :: ops) = k + 1 + countAdds ops := by
        simp only [countAdds]
        omega
      rw [hc]
      exact this
    | undo =>
      have hsub := undoWith_transactions_sublist Arith.machine s
      have := ih (undoLastTransactionWith Arith.machine s).1 k
        (by rw [undoWith_nextId, hk])
        (List.Pairwise.sublist hsub hp)
        (by
          intro t ht
          rw [undoWith_nextId]
          exact hlt t (hsub.subset ht))
        (by simpa [countAdds] using hb)
      simpa [countAdds] using this

/-- Counterexample to C14 as stated: on the machine, after `2^31 - 1` appends
the transaction with id `2^31 - 1` is stored while `nextId` has wrapped to
`-2^31`, below its previous value and below that stored id; the next append
stores the id `-2^31` after it, so the ids no longer increase. -/
theorem nextId_wraps :
    (runWith Arith.machine PersonalFinanceManager.new (incomeOps 2147483646)).nextId
      = 2147483647 ∧
    (runWith Arith.machine PersonalFinanceManager.new (incomeOps 2147483647)).nextId
      = -2147483648 ∧
    (∃ t ∈ (runWith Arith.machine PersonalFinanceManager.new (incomeOps 2147483647)).transactions,
      t.id = 2147483647 ∧
      ¬ t.id < (runWith Arith.machine PersonalFinanceManager.new
          (incomeOps 2147483647)).nextId) ∧
    ¬ (runWith Arith.machine PersonalFinanceManager.new
        (incomeOps 2147483648)).transactions.Pairwise (fun a b => a.id < b.id) := by
  have h0 := runWith_machine_ids (incomeOps 2147483646) PersonalFinanceManager.new 0
    (by simp [PersonalFinanceManager.new]) (by simp [PersonalFinanceManager.new])
    (by simp [PersonalFinanceManager.new])
    (by rw [countAdds_incomeOps]; norm_num)
  rw [countAdds_incomeOps] at h0
  have hn0 : (runWith Arith.machine PersonalFinanceManager.new (incomeOps 2147483646)).nextId
      = 2147483647 := by
    rw [h0.1]; norm_num
  have hrun1 : runWith Arith.machine PersonalFinanceManager.new (incomeOps 2147483647)
      = (addTransactionWith Arith.machine
          (runWith Arith.machine PersonalFinanceManager.new (incomeOps 2147483646)) 1
          "Salary".toList "pay".toList "2024-01-01".toList true).1 := by
    rw [show (2147483647 : Nat) = 2147483646 + 1 from rfl, incomeOps_succ, runWith_append]
    rfl
  have hn1 : (runWith Arith.machine PersonalFinanceManager.new (incomeOps 2147483647)).nextId
      = -2147483648 := by
    rw [hrun1, addWith_nextId, hn0]
    show wrapInt (2147483647 + 1) = -2147483648
    decide
  have hmem : (⟨2147483647, 1, "Salary".toList, "pay".toList, "2024-01-01".toList, true⟩ :
      Transaction)
      ∈ (runWith Arith.machine PersonalFinanceManager.new (incomeOps 2147483647)).transactions := by
    rw [hrun1, addWith_transactions, hn0]
    simp
  have hrun2 : runWith Arith.machine PersonalFinanceManager.new (incomeOps 2147483648)
      = (addTransactionWith Arith.machine
          (runWith Arith.machine PersonalFinanceManager.new (incomeOps 2147483647)) 1
          "Salary".toList "pay".toList "2024-01-01".toList true).1 := by
    rw [show (2147483648 : Nat) = 2147483647 + 1 from rfl, incomeOps_succ, runWith_append]
    rfl
  refine ⟨hn0, hn1, ⟨_, hmem, rfl, ?_⟩, ?_⟩
  · rw [hn1]
    decide
  · intro hpw
    rw [hrun2, addWith_transactions, hn1, List.pairwise_append] at hpw
    have := hpw.2.2 _ hmem
      ⟨-2147483648, 1, "Salary".toList, "pay".toList, "2024-01-01".toList, true⟩ (by simp)
    revert this
    decide

/-- C14 (amended): on the machine, in every state reached by a sequence of
calls with at most `2^31 - 2` appends, the stored ids increase strictly in
storage order and are below `nextId`; `nextId` is one more than the number of
appends made, so the next append, the `k`-th ever made, stores the id `k`
whatever was undone before; `undoLastTransaction` keeps `nextId`, and `nextId`
has not decreased along the calls. -/
theorem ids_increasing_within_int (ops : List Op) (hb : countAdds ops ≤ 2 ^ 31 - 2) :
    (runWith Arith.machine PersonalFinanceManager.new ops).transactions.Pairwise
      (fun a b => a.id < b.id) ∧
    (∀ t ∈ (runWith Arith.machine PersonalFinanceManager.new ops).transactions,
      t.id < (runWith Arith.machine PersonalFinanceManager.new ops).nextId) ∧
    (runWith Arith.machine PersonalFinanceManager.new ops).nextId
      = (countAdds ops : Int) + 1 ∧
    (∀ (a : ℚ) (c d dt : CppString) (i : Bool),
      (addTransactionWith Arith.machine
          (runWith Arith.machine PersonalFinanceManager.new ops) a c d dt i).1.transactions
        = (runWith Arith.machine PersonalFinanceManager.new ops).transactions
            ++ [⟨(countAdds ops : Int) + 1, a, c, d, dt, i⟩]) ∧
    (undoLastTransactionWith Arith.machine
        (runWith Arith.machine PersonalFinanceManager.new ops)).1.nextId
      = (runWith Arith.machine PersonalFinanceManager.new ops).nextId ∧
    (∀ ops₁ ops₂, ops = ops₁ ++ ops₂ →
      (runWith Arith.machine PersonalFinanceManager.new ops₁).nextId
        ≤ (runWith Arith.machine PersonalFinanceManager.new ops).nextId) := by
  have key : ∀ l : List Op, countAdds l ≤ 2 ^ 31 - 2 →
      (runWith Arith.machine PersonalFinanceManager.new l).nextId = (countAdds l : Int) + 1 ∧
      (runWith Arith.machine PersonalFinanceManager.new l).transactions.Pairwise
        (fun a b => a.id < b.id) ∧
      ∀ t ∈ (runWith Arith.machine PersonalFinanceManager.new l).transactions,
        t.id < (runWith Arith.machine PersonalFinanceManager.new l).nextId := by
    intro l hl
    have := runWith_machine_ids l PersonalFinanceManager.new 0
      (by simp [PersonalFinanceManager.new]) (by simp [PersonalFinanceManager.new])
      (by simp [PersonalFinanceManager.new]) (by simpa using hl)
    simpa using this
  have hcount : ∀ l₁ l₂ : List Op, countAdds (l₁ ++ l₂) = countAdds l₁ + countAdds l₂ := by
    intro l₁ l₂
    induction l₁ with
    | nil => simp [countAdds]
    | cons op l₁ ih =>
      cases op with
      | add a c d dt i =>
        show countAdds (l₁ ++ l₂) + 1 = countAdds l₁ + 1 + countAdds l₂
        omega
      | undo => exact ih
  obtain ⟨h1, h2, h3⟩ := key ops hb
  refine ⟨h2, h3, h1, ?_, undoWith_nextId _ _, ?_⟩
  · intro a c d dt i
    rw [addWith_transactions, h1]
  · intro ops₁ ops₂ hops
    have hc := hcount ops₁ ops₂
    rw [← hops] at hc
    rw [h1, (key ops₁ (by omega)).1, hc]
    push_cast
    omega

/-- Witness for C14 (amended): the machine run of one append and one undo
has one append, within the bound; the next append stores id 2, not the id 1
of the undone transaction. -/
theorem ids_increasing_within_int_witness :
    countAdds [Op.add 200 "Food".toList "lunch".toList "2024-01-05".toList false, Op.undo]
      ≤ 2 ^ 31 - 2 ∧
    (runWith Arith.machine PersonalFinanceManager.new
      [Op.add 200 "Food".toList "lunch".toList "2024-01-05".toList false, Op.undo]).nextId
      = ((countAdds
          [Op.add 200 "Food".toList "lunch".toList "2024-01-05".toList false, Op.undo] : Nat)
          : Int) + 1 ∧
    (runWith Arith.machine PersonalFinanceManager.new
      [Op.add 200 "Food".toList "lunch".toList "2024-01-05".toList false, Op.undo]).nextId
      = 2 :=
  ⟨by decide,
   (ids_increasing_within_int
      [Op.add 200 "Food".toList "lunch".toList "2024-01-05".toList false, Op.undo]
      (by decide)).2.2.1,
   by decide!⟩

/-! ## The verdict on the colliding input -/

theorem detectFraud_collidingState (fmt : ℚ → CppString) :
    detectFraud fmt collidingState
      = [Finding.duplicate (fmt 10 ++ "|Fuel|2024|01".toList) 2] ∧
    detectFraudWith Arith.machine fmt collidingState
      = [Finding.duplicate (fmt 10 ++ "|Fuel|2024|01".toList) 2] := by
  have hk1 : patternKey fmt ⟨1, 10, "Fuel".toList, "diesel".toList, "2024|01".toList, false⟩
      = fmt 10 ++ "|Fuel|2024|01".toList := by
    simp [patternKey]
  have hk2 : patternKey fmt ⟨2, 10, "Fuel|2024".toList, "petrol".toList, "01".toList, false⟩
      = fmt 10 ++ "|Fuel|2024|01".toList := by
    simp [patternKey]
  have hcount : countPatterns fmt collidingState.transactions
      = [(fmt 10 ++ "|Fuel|2024|01".toList, 2)] := by
    rw [collidingState_transactions]
    simp only [countPatterns, List.foldl_cons, List.foldl_nil, hk1, hk2, UMap.modify, if_true]
    norm_num
  have hdup : reportDuplicates [(fmt 10 ++ "|Fuel|2024|01".toList, (2 : Int))] ([], false)
      = ([Finding.duplicate (fmt 10 ++ "|Fuel|2024|01".toList) 2], true) := by
    simp [reportDuplicates]
  have hlarge : reportLarge collidingState.transactions
      ([Finding.duplicate (fmt 10 ++ "|Fuel|2024|01".toList) 2], true)
      = ([Finding.duplicate (fmt 10 ++ "|Fuel|2024|01".toList) 2], true) := by
    rw [collidingState_transactions]
    simp [reportLarge, List.insertionSort, List.orderedInsert]
  have hmul : Arith.machine.mul 10 3 = 30 := by decide!
  have hlargeM : reportLargeWith Arith.machine collidingState.transactions
      ([Finding.duplicate (fmt 10 ++ "|Fuel|2024|01".toList) 2], true)
      = ([Finding.duplicate (fmt 10 ++ "|Fuel|2024|01".toList) 2], true) := by
    rw [collidingState_transactions]
    simp [reportLargeWith, List.insertionSort, List.orderedInsert, hmul]
    norm_num
  constructor
  · simp only [detectFraud, hcount, hdup, hlarge]
    simp
  · simp only [detectFraudWith, hcount, hdup, hlargeM]
    simp

/-- C12, the code at the failing input: in `collidingState` no
`(amount, category, date)` tuple has more than one member and no stored
expense exceeds three times the median 10, so neither pass should produce a
finding; yet for every rendering of amounts `detectFraud` does not answer
`Safe` but reports a Duplicate finding, with exact and with machine
arithmetic alike. -/
theorem detectFraud_not_safe_without_duplicate (fmt : ℚ → CppString) :
    (∀ a c d, tupleCount collidingState.transactions a c d ≤ 1) ∧
    (expenseAmounts collidingState.transactions).insertionSort (fun a b => a ≤ b) = [10, 10] ∧
    (∀ t ∈ collidingState.transactions, ¬ t.amount > 3 * 10) ∧
    largePass collidingState = [] ∧
    detectFraud fmt collidingState ≠ [Finding.safe] ∧
    detectFraudWith Arith.machine fmt collidingState ≠ [Finding.safe] ∧
    detectFraud fmt collidingState
      = [Finding.duplicate (fmt 10 ++ "|Fuel|2024|01".toList) 2] := by
  obtain ⟨h1, h2⟩ := detectFraud_collidingState fmt
  refine ⟨?_, by decide!, by decide!, by decide!, ?_, ?_, h1⟩
  · intro a c d
    rw [collidingState_transactions]
    unfold tupleCount
    by_cases hc : c = "Fuel".toList
    · have hne : ¬ ("Fuel|2024".toList = c) := by rw [hc]; decide
      simp only [List.filter, hne, and_false, false_and, decide_False]
      split <;> simp
    · have hne : ¬ ("Fuel".toList = c) := fun h => hc h.symm
      simp only [List.filter, hne, and_false, false_and, decide_False]
      split <;> simp
  · rw [h1]; simp
  · rw [h2]; simp

end Zenith
